import Mathlib

/-!
Verification of the content-addressed directory-comparison engine of
`data_comparer` (Go).  The definitions below are a shallow embedding of
`main.go`: pure Go functions become Lean functions, Go maps become
association lists (Go map iteration order is irrelevant to every result
proved here: the code only performs key lookups, `all`/`any`-style scans
with early exit, and per-key deletions), and the two sources of real-world
effects — file hashing and the parallel worker pool — become explicit
parameters (a `hashFile : String → Option String` oracle and a
`schedule` reordering of result batches).

Paths: the Go code splits relative paths on `filepath.Separator` and
takes parents with `filepath.Dir`.  We model the Unix separator `"/"`.
`goDir` below equals Go's `filepath.Dir` on the cleaned relative paths
the scanner produces (no empty, `"."` or `".."` segments); theorems that
depend on path shape carry the needed cleanliness as an explicit
hypothesis.
-/

/-- Splits a character stream on `'/'`, accumulating the current segment
in reverse.  Mirrors Go `strings.Split(s, string(filepath.Separator))`. -/
def splitSegsAux : List Char → List Char → List String
  | acc, [] => [String.mk acc.reverse]
  | acc, c :: cs =>
    if c = '/' then String.mk acc.reverse :: splitSegsAux [] cs
    else splitSegsAux (c :: acc) cs

/-- Go `strings.Split(s, string(filepath.Separator))` on Unix. -/
def splitPath (s : String) : List String := splitSegsAux [] s.toList

/-- Go `strings.Join(parts, string(filepath.Separator))` on Unix. -/
def joinPath : List String → String
  | [] => ""
  | [s] => s
  | s :: s2 :: rest => s ++ "/" ++ joinPath (s2 :: rest)

/-- Go `filepath.Dir` restricted to clean slash-separated relative paths:
drop the final segment and rejoin, with `"."` for a bare file name. -/
def goDir (s : String) : String :=
  match (splitPath s).dropLast with
  | [] => "."
  | parts => joinPath parts

/-- Go struct `FileInfo` (metadata of one scanned file). -/
structure FileInfo where
  RelativePath : String
  AbsolutePath : String
  Name : String
  Hash : String
  Size : Int
  RootDir : String
deriving DecidableEq, Repr

/-- Go struct `FileSet`: the record list plus the two derived indexes,
`map[string][]*FileInfo` modelled as association lists with at most one
entry per key (updates replace the first occurrence, which for the
duplicate-free lists built by the code is exactly Go map assignment). -/
structure FileSet where
  Files : List FileInfo
  NameMap : List (String × List FileInfo)
  HashMap : List (String × List FileInfo)
deriving DecidableEq, Repr

/-- Lookup of a Go `map[string][]*FileInfo`: value of the first entry
carrying the key. -/
def mapFind (m : List (String × List FileInfo)) (k : String) : Option (List FileInfo) :=
  (m.find? (fun kv => kv.1 == k)).map (fun kv => kv.2)

/-- Go `v, ok := m[k]` with `ok` discarded: the value, defaulting to nil. -/
def mapGetD (m : List (String × List FileInfo)) (k : String) : List FileInfo :=
  (mapFind m k).getD []

/-- Go `_, ok := m[k]`: key membership. -/
def mapHasKey (m : List (String × List FileInfo)) (k : String) : Bool :=
  (mapFind m k).isSome

/-- Go `m[k] = append(m[k], v)`: extend the list at `k`, creating the
entry when absent. -/
def mapAppend : List (String × List FileInfo) → String → FileInfo →
    List (String × List FileInfo)
  | [], k, v => [(k, [v])]
  | kv :: rest, k, v =>
    if kv.1 == k then (kv.1, kv.2 ++ [v]) :: rest else kv :: mapAppend rest k v

/-- Go `m[k] = v`: overwrite-or-create. -/
def mapSet : List (String × List FileInfo) → String → List FileInfo →
    List (String × List FileInfo)
  | [], k, v => [(k, v)]
  | kv :: rest, k, v =>
    if kv.1 == k then (kv.1, v) :: rest else kv :: mapSet rest k v

/-- The `FileSet` literal both scan paths start from: empty record list,
freshly made (empty) maps. -/
def emptyFileSet : FileSet := ⟨[], [], []⟩

/-- The three appends every scan path performs per hashed file:
`fileSet.Files = append(...)`, `NameMap[name] = append(...)`,
`HashMap[hash] = append(...)`. -/
def insertRecord (fileSet : FileSet) (fi : FileInfo) : FileSet :=
  { Files := fileSet.Files ++ [fi]
    NameMap := mapAppend fileSet.NameMap fi.Name fi
    HashMap := mapAppend fileSet.HashMap fi.Hash fi }

/-- Catalog assembled by inserting the given records in order. -/
def buildFileSet (l : List FileInfo) : FileSet := l.foldl insertRecord emptyFileSet

/-- Go struct `ComparisonResult`. -/
structure ComparisonResult where
  SameNameDifferentHash : List FileInfo
  NameMappings : List (String × List FileInfo)
  UniqueToSet2 : List FileInfo
  UniqueToSet1 : List FileInfo
deriving DecidableEq, Repr

/-- Body of the first loop of `compareFileSets` (one `file2` of `set2.Files`):
hash match in set1 → skip; else name match → modified + mapping; else unique. -/
def set2Step (set1 : FileSet) (result : ComparisonResult) (file2 : FileInfo) :
    ComparisonResult :=
  if mapHasKey set1.HashMap file2.Hash then result
  else
    match mapFind set1.NameMap file2.Name with
    | some files1WithSameName =>
      { result with
        SameNameDifferentHash := result.SameNameDifferentHash ++ [file2]
        NameMappings := mapSet result.NameMappings file2.Name files1WithSameName }
    | none => { result with UniqueToSet2 := result.UniqueToSet2 ++ [file2] }

/-- Body of the second loop of `compareFileSets` (one `file1` of `set1.Files`):
hash match in set2 → skip; no name match → unique to set 1. -/
def set1Step (set2 : FileSet) (result : ComparisonResult) (file1 : FileInfo) :
    ComparisonResult :=
  if mapHasKey set2.HashMap file1.Hash then result
  else if mapHasKey set2.NameMap file1.Name then result
  else { result with UniqueToSet1 := result.UniqueToSet1 ++ [file1] }

/-- Go `compareFileSets`: both loops, starting from the empty result. -/
def compareFileSets (set1 set2 : FileSet) : ComparisonResult :=
  let r1 := set2.Files.foldl (set2Step set1) ⟨[], [], [], []⟩
  set1.Files.foldl (set1Step set2) r1

/-- The condition under which the first loop puts a record in the
modified list. -/
def isModifiedIn (set1 : FileSet) (f : FileInfo) : Bool :=
  !mapHasKey set1.HashMap f.Hash && (mapFind set1.NameMap f.Name).isSome

/-- The condition under which the first loop puts a record in the
unique-to-set-2 list. -/
def isUnique2In (set1 : FileSet) (f : FileInfo) : Bool :=
  !mapHasKey set1.HashMap f.Hash && !(mapFind set1.NameMap f.Name).isSome

/-- The condition under which the second loop puts a record in the
unique-to-set-1 list. -/
def isUnique1In (set2 : FileSet) (f : FileInfo) : Bool :=
  !mapHasKey set2.HashMap f.Hash && !mapHasKey set2.NameMap f.Name

-- ## Association-list map lemmas

theorem mapFind_cons (kv : String × List FileInfo) (rest : List (String × List FileInfo))
    (n : String) :
    mapFind (kv :: rest) n = if kv.1 = n then some kv.2 else mapFind rest n := by
  by_cases h : kv.1 = n
  · simp [mapFind, List.find?_cons, beq_iff_eq.mpr h, h]
  · simp [mapFind, List.find?_cons, beq_eq_false_iff_ne.mpr h, h]

theorem mapFind_mapSet (k n : String) (v : List FileInfo) :
    ∀ m, mapFind (mapSet m k v) n = if n = k then some v else mapFind m n := by
  intro m
  induction m with
  | nil =>
    by_cases h : n = k
    · subst h; simp [mapSet, mapFind_cons, mapFind]
    · have h2 : ¬(k = n) := fun hc => h hc.symm
      simp [mapSet, mapFind_cons, mapFind, h, h2]
  | cons kv rest ih =>
    by_cases hk : kv.1 = k
    · simp only [mapSet, beq_iff_eq.mpr hk, if_true]
      by_cases hn : n = k
      · rw [mapFind_cons]
        simp [hk, hn]
      · rw [mapFind_cons, mapFind_cons]
        have h2 : ¬(kv.1 = n) := fun hc => hn (hc.symm.trans hk)
        simp only [h2, if_false, hn]
    · simp only [mapSet, beq_eq_false_iff_ne.mpr hk, Bool.false_eq_true, if_false]
      rw [mapFind_cons, mapFind_cons]
      by_cases hn : kv.1 = n
      · have h2 : ¬(n = k) := fun hc => hk (hn.trans hc)
        simp [hn, h2]
      · simp [hn, ih]

theorem mapFind_mapAppend (k n : String) (v : FileInfo) :
    ∀ m, mapFind (mapAppend m k v) n =
      if n = k then some (mapGetD m k ++ [v]) else mapFind m n := by
  intro m
  induction m with
  | nil =>
    by_cases h : n = k
    · subst h; simp [mapAppend, mapFind_cons, mapFind, mapGetD]
    · have h2 : ¬(k = n) := fun hc => h hc.symm
      simp [mapAppend, mapFind_cons, mapFind, mapGetD, h, h2]
  | cons kv rest ih =>
    by_cases hk : kv.1 = k
    · simp only [mapAppend, beq_iff_eq.mpr hk, if_true]
      by_cases hn : n = k
      · rw [mapFind_cons]
        simp only [hk, hn, if_true]
        have h3 : mapGetD (kv :: rest) k = kv.2 := by
          simp [mapGetD, mapFind_cons, hk]
        rw [h3]
      · rw [mapFind_cons, mapFind_cons]
        have h2 : ¬(kv.1 = n) := fun hc => hn (hc.symm.trans hk)
        simp only [h2, if_false, hn]
    · simp only [mapAppend, beq_eq_false_iff_ne.mpr hk, Bool.false_eq_true, if_false]
      have hgd : mapGetD (kv :: rest) k = mapGetD rest k := by
        simp [mapGetD, mapFind_cons, hk]
      rw [hgd]
      simp only [mapFind_cons]
      by_cases hn : kv.1 = n
      · have h2 : ¬(n = k) := fun hc => hk (hn.trans hc)
        simp [hn, h2]
      · simp [hn, ih]

theorem mapGetD_mapAppend (k n : String) (v : FileInfo) (m : List (String × List FileInfo)) :
    mapGetD (mapAppend m k v) n =
      if n = k then mapGetD m k ++ [v] else mapGetD m n := by
  by_cases h : n = k
  · simp [mapGetD, mapFind_mapAppend, h]
  · simp [mapGetD, mapFind_mapAppend, h]

-- ## Differ characterization: each output list is a filter of its input

theorem set2Step_SNDH (A : FileSet) (acc : ComparisonResult) (f : FileInfo) :
    (set2Step A acc f).SameNameDifferentHash =
      acc.SameNameDifferentHash ++ (if isModifiedIn A f then [f] else []) := by
  unfold set2Step isModifiedIn
  by_cases hh : mapHasKey A.HashMap f.Hash
  · simp [hh]
  · cases hm : mapFind A.NameMap f.Name <;> simp [hh, hm]

theorem set2Step_U2 (A : FileSet) (acc : ComparisonResult) (f : FileInfo) :
    (set2Step A acc f).UniqueToSet2 =
      acc.UniqueToSet2 ++ (if isUnique2In A f then [f] else []) := by
  unfold set2Step isUnique2In
  by_cases hh : mapHasKey A.HashMap f.Hash
  · simp [hh]
  · cases hm : mapFind A.NameMap f.Name <;> simp [hh, hm]

theorem set2Step_U1 (A : FileSet) (acc : ComparisonResult) (f : FileInfo) :
    (set2Step A acc f).UniqueToSet1 = acc.UniqueToSet1 := by
  unfold set2Step
  by_cases hh : mapHasKey A.HashMap f.Hash
  · simp [hh]
  · cases hm : mapFind A.NameMap f.Name <;> simp [hh, hm]

theorem set1Step_U1 (B : FileSet) (acc : ComparisonResult) (f : FileInfo) :
    (set1Step B acc f).UniqueToSet1 =
      acc.UniqueToSet1 ++ (if isUnique1In B f then [f] else []) := by
  unfold set1Step isUnique1In
  by_cases hh : mapHasKey B.HashMap f.Hash
  · simp [hh]
  · by_cases hm : mapHasKey B.NameMap f.Name <;> simp [hh, hm]

theorem set1Step_others (B : FileSet) (acc : ComparisonResult) (f : FileInfo) :
    (set1Step B acc f).SameNameDifferentHash = acc.SameNameDifferentHash ∧
      (set1Step B acc f).UniqueToSet2 = acc.UniqueToSet2 ∧
      (set1Step B acc f).NameMappings = acc.NameMappings := by
  unfold set1Step
  by_cases hh : mapHasKey B.HashMap f.Hash
  · simp [hh]
  · by_cases hm : mapHasKey B.NameMap f.Name <;> simp [hh, hm]

theorem foldl_set2Step_SNDH (A : FileSet) :
    ∀ (l : List FileInfo) (acc : ComparisonResult),
      (l.foldl (set2Step A) acc).SameNameDifferentHash =
        acc.SameNameDifferentHash ++ l.filter (isModifiedIn A) := by
  intro l
  induction l with
  | nil => simp
  | cons f rest ih =>
    intro acc
    rw [List.foldl_cons, ih, set2Step_SNDH]
    by_cases hf : isModifiedIn A f <;> simp [hf, List.filter_cons]

theorem foldl_set2Step_U2 (A : FileSet) :
    ∀ (l : List FileInfo) (acc : ComparisonResult),
      (l.foldl (set2Step A) acc).UniqueToSet2 =
        acc.UniqueToSet2 ++ l.filter (isUnique2In A) := by
  intro l
  induction l with
  | nil => simp
  | cons f rest ih =>
    intro acc
    rw [List.foldl_cons, ih, set2Step_U2]
    by_cases hf : isUnique2In A f <;> simp [hf, List.filter_cons]

theorem foldl_set2Step_U1 (A : FileSet) :
    ∀ (l : List FileInfo) (acc : ComparisonResult),
      (l.foldl (set2Step A) acc).UniqueToSet1 = acc.UniqueToSet1 := by
  intro l
  induction l with
  | nil => simp
  | cons f rest ih =>
    intro acc
    rw [List.foldl_cons, ih, set2Step_U1]

theorem foldl_set1Step_U1 (B : FileSet) :
    ∀ (l : List FileInfo) (acc : ComparisonResult),
      (l.foldl (set1Step B) acc).UniqueToSet1 =
        acc.UniqueToSet1 ++ l.filter (isUnique1In B) := by
  intro l
  induction l with
  | nil => simp
  | cons f rest ih =>
    intro acc
    rw [List.foldl_cons, ih, set1Step_U1]
    by_cases hf : isUnique1In B f <;> simp [hf, List.filter_cons]

theorem foldl_set1Step_others (B : FileSet) :
    ∀ (l : List FileInfo) (acc : ComparisonResult),
      (l.foldl (set1Step B) acc).SameNameDifferentHash = acc.SameNameDifferentHash ∧
        (l.foldl (set1Step B) acc).UniqueToSet2 = acc.UniqueToSet2 ∧
        (l.foldl (set1Step B) acc).NameMappings = acc.NameMappings := by
  intro l
  induction l with
  | nil => simp
  | cons f rest ih =>
    intro acc
    rw [List.foldl_cons]
    rcases ih (set1Step B acc f) with ⟨h1, h2, h3⟩
    rcases set1Step_others B acc f with ⟨g1, g2, g3⟩
    exact ⟨h1.trans g1, h2.trans g2, h3.trans g3⟩

theorem foldl_set2Step_NM (A : FileSet) :
    ∀ (l : List FileInfo) (acc : ComparisonResult) (n : String),
      mapFind (l.foldl (set2Step A) acc).NameMappings n =
        if l.any (fun f => isModifiedIn A f && f.Name == n) then mapFind A.NameMap n
        else mapFind acc.NameMappings n := by
  intro l
  induction l with
  | nil => simp
  | cons f rest ih =>
    intro acc n
    rw [List.foldl_cons, ih]
    unfold set2Step
    by_cases hh : mapHasKey A.HashMap f.Hash
    · have hmod : isModifiedIn A f = false := by simp [isModifiedIn, hh]
      simp [hh, hmod]
    · cases hm : mapFind A.NameMap f.Name with
      | none =>
        have hmod : isModifiedIn A f = false := by simp [isModifiedIn, hh, hm]
        simp [hh, hm, hmod]
      | some files1 =>
        have hmod : isModifiedIn A f = true := by simp [isModifiedIn, hh, hm]
        simp only [hh, Bool.false_eq_true, if_false, hm, hmod, Bool.true_and, List.any_cons]
        by_cases hn : f.Name = n
        · subst hn
          simp only [beq_self_eq_true, Bool.true_or, if_true]
          by_cases hr : rest.any (fun g => isModifiedIn A g && g.Name == f.Name)
          · simp [hr]
          · simp only [hr, Bool.false_eq_true, if_false]
            rw [mapFind_mapSet]
            simp [hm]
        · have hb : (f.Name == n) = false := beq_eq_false_iff_ne.mpr hn
          simp only [hb, Bool.false_or]
          by_cases hr : rest.any (fun g => isModifiedIn A g && g.Name == n)
          · simp [hr]
          · simp only [hr, Bool.false_eq_true, if_false]
            rw [mapFind_mapSet]
            have h3 : ¬(n = f.Name) := fun hc => hn hc.symm
            simp [h3]

theorem compareFileSets_SNDH (A B : FileSet) :
    (compareFileSets A B).SameNameDifferentHash = B.Files.filter (isModifiedIn A) := by
  unfold compareFileSets
  rw [(foldl_set1Step_others B _ _).1, foldl_set2Step_SNDH]
  simp

theorem compareFileSets_U2 (A B : FileSet) :
    (compareFileSets A B).UniqueToSet2 = B.Files.filter (isUnique2In A) := by
  unfold compareFileSets
  rw [(foldl_set1Step_others B _ _).2.1, foldl_set2Step_U2]
  simp

theorem compareFileSets_U1 (A B : FileSet) :
    (compareFileSets A B).UniqueToSet1 = A.Files.filter (isUnique1In B) := by
  unfold compareFileSets
  rw [foldl_set1Step_U1, foldl_set2Step_U1]
  simp

theorem compareFileSets_NM (A B : FileSet) (n : String) :
    mapFind (compareFileSets A B).NameMappings n =
      if B.Files.any (fun f => isModifiedIn A f && f.Name == n) then mapFind A.NameMap n
      else none := by
  unfold compareFileSets
  rw [(foldl_set1Step_others B _ _).2.2, foldl_set2Step_NM]
  simp [mapFind]

theorem perm_any_eq {l1 l2 : List FileInfo} (h : l1.Perm l2) (p : FileInfo → Bool) :
    l1.any p = l2.any p := by
  cases hb : l2.any p
  · rw [List.any_eq_false] at hb ⊢
    intro x hx
    exact hb x (h.mem_iff.mp hx)
  · rw [List.any_eq_true] at hb ⊢
    obtain ⟨x, hx, hp⟩ := hb
    exact ⟨x, h.mem_iff.mpr hx, hp⟩

/-- C2.  Differ classification: a record of catalog B lands in exactly one
of the three outcomes.  If its fingerprint is a key of A's fingerprint
index it is reported nowhere; else if its name is a key of A's name index
it goes (only) to the modified list and the name mapping for its name is
A's record list for that name; else it goes (only) to unique-to-B.  The
hypothesis `hB` states that B's fingerprint index covers B's records,
which holds for every catalog the scanner builds (see the catalog index
consistency theorem). -/
theorem differ_classification_exact (A B : FileSet) (r : FileInfo)
    (hr : r ∈ B.Files)
    (hB : ∀ x ∈ B.Files, mapHasKey B.HashMap x.Hash = true) :
    (mapHasKey A.HashMap r.Hash = true →
       r ∉ (compareFileSets A B).SameNameDifferentHash ∧
       r ∉ (compareFileSets A B).UniqueToSet2 ∧
       r ∉ (compareFileSets A B).UniqueToSet1) ∧
    (mapHasKey A.HashMap r.Hash = false → (mapFind A.NameMap r.Name).isSome = true →
       r ∈ (compareFileSets A B).SameNameDifferentHash ∧
       mapFind (compareFileSets A B).NameMappings r.Name = mapFind A.NameMap r.Name ∧
       r ∉ (compareFileSets A B).UniqueToSet2 ∧
       r ∉ (compareFileSets A B).UniqueToSet1) ∧
    (mapHasKey A.HashMap r.Hash = false → (mapFind A.NameMap r.Name).isSome = false →
       r ∈ (compareFileSets A B).UniqueToSet2 ∧
       r ∉ (compareFileSets A B).SameNameDifferentHash ∧
       r ∉ (compareFileSets A B).UniqueToSet1) := by
  have hU1 : r ∉ (compareFileSets A B).UniqueToSet1 := by
    rw [compareFileSets_U1]
    intro hmem
    have hp := (List.mem_filter.mp hmem).2
    unfold isUnique1In at hp
    rw [hB r hr] at hp
    simp at hp
  refine ⟨fun h1 => ⟨?_, ?_, hU1⟩, fun h1 h2 => ⟨?_, ?_, ?_, hU1⟩, fun h1 h2 => ⟨?_, ?_, hU1⟩⟩
  · rw [compareFileSets_SNDH]
    intro hmem
    have hp := (List.mem_filter.mp hmem).2
    unfold isModifiedIn at hp
    rw [h1] at hp
    simp at hp
  · rw [compareFileSets_U2]
    intro hmem
    have hp := (List.mem_filter.mp hmem).2
    unfold isUnique2In at hp
    rw [h1] at hp
    simp at hp
  · rw [compareFileSets_SNDH]
    exact List.mem_filter.mpr ⟨hr, by simp [isModifiedIn, h1, h2]⟩
  · rw [compareFileSets_NM]
    have hany : B.Files.any (fun f => isModifiedIn A f && f.Name == r.Name) = true :=
      List.any_eq_true.mpr ⟨r, hr, by simp [isModifiedIn, h1, h2]⟩
    rw [hany]
    simp
  · rw [compareFileSets_U2]
    intro hmem
    have hp := (List.mem_filter.mp hmem).2
    unfold isUnique2In at hp
    rw [h2] at hp
    simp at hp
  · rw [compareFileSets_U2]
    exact List.mem_filter.mpr ⟨hr, by simp [isUnique2In, h1, h2]⟩
  · rw [compareFileSets_SNDH]
    intro hmem
    have hp := (List.mem_filter.mp hmem).2
    unfold isModifiedIn at hp
    rw [h2] at hp
    simp at hp

/-- C3.  Differ symmetry law: a record whose fingerprint is a key of both
catalogs' fingerprint indexes appears in none of the three output lists of
`compareFileSets`, regardless of its name — a renamed file with identical
content is never reported. -/
theorem differ_symmetry_law (A B : FileSet) (r : FileInfo)
    (h1 : mapHasKey A.HashMap r.Hash = true)
    (h2 : mapHasKey B.HashMap r.Hash = true) :
    r ∉ (compareFileSets A B).SameNameDifferentHash ∧
    r ∉ (compareFileSets A B).UniqueToSet1 ∧
    r ∉ (compareFileSets A B).UniqueToSet2 := by
  refine ⟨?_, ?_, ?_⟩
  · rw [compareFileSets_SNDH]
    intro hmem
    have hp := (List.mem_filter.mp hmem).2
    unfold isModifiedIn at hp
    rw [h1] at hp
    simp at hp
  · rw [compareFileSets_U1]
    intro hmem
    have hp := (List.mem_filter.mp hmem).2
    unfold isUnique1In at hp
    rw [h2] at hp
    simp at hp
  · rw [compareFileSets_U2]
    intro hmem
    have hp := (List.mem_filter.mp hmem).2
    unfold isUnique2In at hp
    rw [h1] at hp
    simp at hp

/-- C7.  Order-insensitivity of the differ: permuting the `Files` lists of
either catalog (keeping the two indexes) permutes each output list of
`compareFileSets` — so the classification is unchanged as a set — and
leaves the name mapping pointwise identical. -/
theorem differ_order_insensitive (A A2 B B2 : FileSet)
    (hAf : A2.Files.Perm A.Files) (hAn : A2.NameMap = A.NameMap)
    (hAh : A2.HashMap = A.HashMap)
    (hBf : B2.Files.Perm B.Files) (hBn : B2.NameMap = B.NameMap)
    (hBh : B2.HashMap = B.HashMap) :
    (compareFileSets A2 B2).SameNameDifferentHash.Perm
      (compareFileSets A B).SameNameDifferentHash ∧
    (compareFileSets A2 B2).UniqueToSet2.Perm (compareFileSets A B).UniqueToSet2 ∧
    (compareFileSets A2 B2).UniqueToSet1.Perm (compareFileSets A B).UniqueToSet1 ∧
    ∀ n, mapFind (compareFileSets A2 B2).NameMappings n =
      mapFind (compareFileSets A B).NameMappings n := by
  have hmod : isModifiedIn A2 = isModifiedIn A := by
    funext f; simp [isModifiedIn, hAn, hAh]
  have hu2 : isUnique2In A2 = isUnique2In A := by
    funext f; simp [isUnique2In, hAn, hAh]
  have hu1 : isUnique1In B2 = isUnique1In B := by
    funext f; simp [isUnique1In, hBn, hBh]
  refine ⟨?_, ?_, ?_, ?_⟩
  · rw [compareFileSets_SNDH, compareFileSets_SNDH, hmod]
    exact hBf.filter _
  · rw [compareFileSets_U2, compareFileSets_U2, hu2]
    exact hBf.filter _
  · rw [compareFileSets_U1, compareFileSets_U1, hu1]
    exact hAf.filter _
  · intro n
    rw [compareFileSets_NM, compareFileSets_NM, hmod, hAn,
      perm_any_eq hBf (fun f => isModifiedIn A f && f.Name == n)]

-- ## Directory trees

/-- Go struct `TreeNode`.  `Children` is the Go `map[string]*TreeNode` as
an association list.  The Go `Parent` back-pointer exists only to
reconstruct a node's path by walking up to the root; in this functional
embedding that walk is reproduced by threading the ancestor name chain
through the recursion (`ancestors` below), which for trees assembled by
the builders — where `Parent` is always the node the child was created
under — is exactly the same chain. -/
inductive TreeNode : Type where
  | node (Name : String) (IsDir : Bool) (Files : List FileInfo)
      (Children : List (String × TreeNode)) (IsEntireDir : Bool)

def TreeNode.name : TreeNode → String
  | .node nm _ _ _ _ => nm

def TreeNode.isDir : TreeNode → Bool
  | .node _ d _ _ _ => d

def TreeNode.files : TreeNode → List FileInfo
  | .node _ _ fs _ _ => fs

def TreeNode.children : TreeNode → List (String × TreeNode)
  | .node _ _ _ ch _ => ch

def TreeNode.isEntireDir : TreeNode → Bool
  | .node _ _ _ _ e => e

/-- Structural induction over the nested tree type: to prove `P` of every
node it is enough to prove it of a node given it for all children. -/
theorem TreeNode.inductionOn (P : TreeNode → Prop)
    (h : ∀ nm d fs ch e, (∀ p ∈ ch, P p.2) → P (TreeNode.node nm d fs ch e)) :
    ∀ t, P t
  | .node nm d fs ch e => h nm d fs ch e (fun p hp => TreeNode.inductionOn P h p.2)
decreasing_by
  have h1 := List.sizeOf_lt_of_mem hp
  cases p
  simp_all
  omega

/-- Go `current.Children[part]` (nil when absent). -/
def lookupChild (ch : List (String × TreeNode)) (k : String) : Option TreeNode :=
  (ch.find? (fun kc => kc.1 == k)).map (fun kc => kc.2)

/-- Go `current.Children[part] = node`: overwrite-or-create. -/
def setChild : List (String × TreeNode) → String → TreeNode → List (String × TreeNode)
  | [], k, c => [(k, c)]
  | kc :: rest, k, c =>
    if kc.1 == k then (kc.1, c) :: rest else kc :: setChild rest k c

/-- The `&TreeNode{...}` literal created for a missing directory segment
(`Parent` is the node it is stored under; see `TreeNode`). -/
def newDirNode (part : String) : TreeNode := .node part true [] [] false

/-- The inner loop of `buildTree` / `buildSmartTree` for one file: walk the
split relative path, creating directory nodes, and append the record to
the `Files` of the node for the last segment's parent. -/
def insertFileParts (file : FileInfo) : List String → TreeNode → TreeNode
  | [], t => t
  | [_], .node nm d fs ch e => .node nm d (fs ++ [file]) ch e
  | part :: part2 :: rest, .node nm d fs ch e =>
    let child := (lookupChild ch part).getD (newDirNode part)
    .node nm d fs (setChild ch part (insertFileParts file (part2 :: rest) child)) e

/-- The root literal both tree builders start from. -/
def emptyRoot : TreeNode := .node "" true [] [] false

/-- Go `buildTree`: insert every file into a fresh root. -/
def buildTree (files : List FileInfo) : TreeNode :=
  files.foldl (fun t file => insertFileParts file (splitPath file.RelativePath) t) emptyRoot

/-- The `dir := filepath.Dir(...); for dir != "." && dir != ""` loop of
`buildSmartTree`, collecting every ancestor directory of one record.  The
fuel is the segment count, which strictly bounds the chain length. -/
def dirChainAux : Nat → String → List String
  | 0, _ => []
  | fuel + 1, s =>
    let dir := goDir s
    if dir == "." || dir == "" then [] else dir :: dirChainAux fuel dir

/-- The `directoriesInSourceSet` map of `buildSmartTree` (key set of the
Go `map[string]bool`). -/
def directoriesInSourceSet (sourceSet : FileSet) : List String :=
  sourceSet.Files.foldl
    (fun acc file => acc ++ dirChainAux (splitPath file.RelativePath).length file.RelativePath) []

/-- Flag computation at the end of `markEntireDirectoriesNew`, applied to
the already-marked children `ch2` of a directory node: root is never
entire; a directory absent from the source catalog's directory set is
never entire; otherwise a directory with some content is entire iff its
direct source files are all unmatched in the other set and its child
directories are all entire. -/
def markFlag (sourceSet otherSet : FileSet) (directoriesInSource : List String)
    (chain : List String) (nm : String) (ch2 : List (String × TreeNode)) : Bool :=
  if nm == "" then false
  else
    let dirPath := joinPath chain
    if !(directoriesInSource.contains dirPath) then false
    else
      let filesInDirCount :=
        sourceSet.Files.countP (fun f => goDir f.RelativePath == dirPath)
      let filesWithoutMatchCount :=
        sourceSet.Files.countP
          (fun f => goDir f.RelativePath == dirPath && !mapHasKey otherSet.HashMap f.Hash)
      let allDirectFilesUnmatched :=
        filesInDirCount == 0 ||
          (decide (0 < filesInDirCount) && filesInDirCount == filesWithoutMatchCount)
      let allChildrenAreEntire := ch2.all (fun kc => !kc.2.isDir || kc.2.isEntireDir)
      let hasChildDirs := ch2.any (fun kc => kc.2.isDir)
      let hasContent := decide (0 < filesInDirCount) || hasChildDirs
      hasContent && allDirectFilesUnmatched && (!hasChildDirs || allChildrenAreEntire)

mutual
/-- Go `markEntireDirectoriesNew`: post-order marking of directories whose
direct source files all lack a fingerprint match in the other set and
whose child directories are all themselves marked entire.  `ancestors` is
the name chain the Go code reconstructs through `Parent` pointers (it
stops at the first empty name, hence the reset for the root).  The two
early `IsEntireDir = false; return` paths of the Go code are the first
two branches of `markFlag`. -/
def markEntireDirectoriesNew (sourceSet otherSet : FileSet)
    (directoriesInSource : List String) (ancestors : List String) : TreeNode → TreeNode
  | .node nm d fs ch e =>
    if !d then .node nm d fs ch e
    else
      let chain := if nm == "" then [] else ancestors ++ [nm]
      let ch2 := markEntireChildren sourceSet otherSet directoriesInSource chain ch
      .node nm d fs ch2 (markFlag sourceSet otherSet directoriesInSource chain nm ch2)

/-- The `for _, child := range node.Children` recursion of
`markEntireDirectoriesNew` (map iteration order does not matter: children
are marked independently). -/
def markEntireChildren (sourceSet otherSet : FileSet)
    (directoriesInSource : List String) (chain : List String) :
    List (String × TreeNode) → List (String × TreeNode)
  | [] => []
  | (k, c) :: rest =>
    (k, markEntireDirectoriesNew sourceSet otherSet directoriesInSource chain c) ::
      markEntireChildren sourceSet otherSet directoriesInSource chain rest
end

mutual
/-- Go `removeEmptyDirectories`: prune empty directory subtrees bottom-up;
returns the pruned node and the keep verdict (`true` = keep).  Files are
always kept; a directory is kept iff it retains a file or a child. -/
def removeEmptyDirectories : TreeNode → TreeNode × Bool
  | .node nm d fs ch e =>
    if !d then (.node nm d fs ch e, true)
    else
      let ch2 := pruneChildren ch
      (.node nm d fs ch2 e, !fs.isEmpty || !ch2.isEmpty)

/-- The `for name, child := range node.Children` loop of
`removeEmptyDirectories` with its `delete` of rejected children. -/
def pruneChildren : List (String × TreeNode) → List (String × TreeNode)
  | [] => []
  | (k, c) :: rest =>
    let r := removeEmptyDirectories c
    if r.2 then (k, r.1) :: pruneChildren rest else pruneChildren rest
end

/-- Go `buildSmartTree`: build the tree from the unique-file list, mark
entire directories against the source and other catalogs, prune empty
directories (the Go code ignores the root's own verdict). -/
def buildSmartTree (files : List FileInfo) (sourceSet otherSet : FileSet) : TreeNode :=
  let directoriesInSource := directoriesInSourceSet sourceSet
  let tree := files.foldl
    (fun t file => insertFileParts file (splitPath file.RelativePath) t) emptyRoot
  let marked := markEntireDirectoriesNew sourceSet otherSet directoriesInSource [] tree
  (removeEmptyDirectories marked).1

/-- Navigation: the node reached from `t` by following child keys. -/
def subtreeAt : TreeNode → List String → Option TreeNode
  | t, [] => some t
  | t, k :: rest =>
    match lookupChild t.children k with
    | some c => subtreeAt c rest
    | none => none

mutual
/-- Soundness property a collapsed directory actually guarantees: no
source record whose immediate parent directory is `dirPath`, or is the
path of any directory node in this subtree of the display tree, has a
fingerprint match in the other catalog. -/
def NoMatchBelowTree (sourceSet otherSet : FileSet) (dirPath : List String) :
    TreeNode → Bool
  | .node _ _ _ ch _ =>
    sourceSet.Files.all
      (fun f => !(goDir f.RelativePath == joinPath dirPath) || !mapHasKey otherSet.HashMap f.Hash)
      && NoMatchBelowChildren sourceSet otherSet dirPath ch

/-- Child half of `NoMatchBelowTree` (descends into directory children by
their node name, which in built trees equals the map key). -/
def NoMatchBelowChildren (sourceSet otherSet : FileSet) (dirPath : List String) :
    List (String × TreeNode) → Bool
  | [] => true
  | (_, c) :: rest =>
    (!c.isDir || NoMatchBelowTree sourceSet otherSet (dirPath ++ [c.name]) c)
      && NoMatchBelowChildren sourceSet otherSet dirPath rest
end

mutual
/-- Shape invariant of built trees: every node is a directory and every
child is stored under its own (nonempty) name. -/
def namesDirsOK : TreeNode → Bool
  | .node _ d _ ch _ => d && namesDirsOKChildren ch

def namesDirsOKChildren : List (String × TreeNode) → Bool
  | [] => true
  | (k, c) :: rest =>
    (c.name == k) && !(k == "") && namesDirsOK c && namesDirsOKChildren rest
end

mutual
/-- Placement invariant of built trees: every record attached at the node
reached by key path `p` has `p` as the segment list of its parent
directory. -/
def filesAtOK (p : List String) : TreeNode → Bool
  | .node _ _ fs ch _ =>
    fs.all (fun f => (splitPath f.RelativePath).dropLast == p) && filesAtChildrenOK p ch

def filesAtChildrenOK (p : List String) : List (String × TreeNode) → Bool
  | [] => true
  | (k, c) :: rest => filesAtOK (p ++ [k]) c && filesAtChildrenOK p rest
end

mutual
/-- After marking: every entire-marked directory node of the tree, located
at name path `p`, satisfies `NoMatchBelowTree` at `p`. -/
def markedSoundAll (sourceSet otherSet : FileSet) (p : List String) : TreeNode → Bool
  | .node nm d fs ch e =>
    (!(d && e) || NoMatchBelowTree sourceSet otherSet p (.node nm d fs ch e))
      && markedSoundKids sourceSet otherSet p ch

def markedSoundKids (sourceSet otherSet : FileSet) (p : List String) :
    List (String × TreeNode) → Bool
  | [] => true
  | (_, c) :: rest =>
    markedSoundAll sourceSet otherSet (p ++ [c.name]) c
      && markedSoundKids sourceSet otherSet p rest
end

-- ## Tree lemmas: unfolding the mutual recursions into list combinators

theorem markEntireChildren_eq_map (S O : FileSet) (dirs chain : List String) :
    ∀ ch, markEntireChildren S O dirs chain ch =
      ch.map (fun kc => (kc.1, markEntireDirectoriesNew S O dirs chain kc.2)) := by
  intro ch
  induction ch with
  | nil => rfl
  | cons kc rest ih =>
    cases kc
    simp [markEntireChildren, ih]

theorem NoMatchBelowChildren_eq_all (S O : FileSet) (p : List String) :
    ∀ ch, NoMatchBelowChildren S O p ch =
      ch.all (fun kc => !kc.2.isDir || NoMatchBelowTree S O (p ++ [kc.2.name]) kc.2) := by
  intro ch
  induction ch with
  | nil => rfl
  | cons kc rest ih =>
    cases kc
    simp [NoMatchBelowChildren, ih]

theorem namesDirsOKChildren_eq_all :
    ∀ ch, namesDirsOKChildren ch =
      ch.all (fun kc => (kc.2.name == kc.1) && !(kc.1 == "") && namesDirsOK kc.2) := by
  intro ch
  induction ch with
  | nil => rfl
  | cons kc rest ih =>
    cases kc
    simp [namesDirsOKChildren, ih, Bool.and_assoc]

theorem filesAtChildrenOK_eq_all (p : List String) :
    ∀ ch, filesAtChildrenOK p ch = ch.all (fun kc => filesAtOK (p ++ [kc.1]) kc.2) := by
  intro ch
  induction ch with
  | nil => rfl
  | cons kc rest ih =>
    cases kc
    simp [filesAtChildrenOK, ih]

theorem markedSoundKids_eq_all (S O : FileSet) (p : List String) :
    ∀ ch, markedSoundKids S O p ch =
      ch.all (fun kc => markedSoundAll S O (p ++ [kc.2.name]) kc.2) := by
  intro ch
  induction ch with
  | nil => rfl
  | cons kc rest ih =>
    cases kc
    simp [markedSoundKids, ih]

theorem mark_of_not_dir (S O : FileSet) (dirs anc : List String) (t : TreeNode)
    (h : t.isDir = false) : markEntireDirectoriesNew S O dirs anc t = t := by
  cases t with
  | node nm d fs ch e =>
    simp only [TreeNode.isDir] at h
    subst h
    rfl

theorem mark_node_of_dir (S O : FileSet) (dirs anc : List String)
    (nm : String) (fs : List FileInfo) (ch : List (String × TreeNode)) (e : Bool) :
    markEntireDirectoriesNew S O dirs anc (.node nm true fs ch e) =
      .node nm true fs
        (markEntireChildren S O dirs (if nm == "" then [] else anc ++ [nm]) ch)
        (markFlag S O dirs (if nm == "" then [] else anc ++ [nm]) nm
          (markEntireChildren S O dirs (if nm == "" then [] else anc ++ [nm]) ch)) := by
  rfl

theorem mark_name (S O : FileSet) (dirs anc : List String) (t : TreeNode) :
    (markEntireDirectoriesNew S O dirs anc t).name = t.name := by
  cases t with
  | node nm d fs ch e =>
    by_cases hd : d
    · subst hd
      rw [mark_node_of_dir]
      rfl
    · simp only [Bool.not_eq_true] at hd
      subst hd
      rfl

theorem mark_isDir (S O : FileSet) (dirs anc : List String) (t : TreeNode) :
    (markEntireDirectoriesNew S O dirs anc t).isDir = t.isDir := by
  cases t with
  | node nm d fs ch e =>
    by_cases hd : d
    · subst hd
      rw [mark_node_of_dir]
      rfl
    · simp only [Bool.not_eq_true] at hd
      subst hd
      rfl

theorem mark_files (S O : FileSet) (dirs anc : List String) (t : TreeNode) :
    (markEntireDirectoriesNew S O dirs anc t).files = t.files := by
  cases t with
  | node nm d fs ch e =>
    by_cases hd : d
    · subst hd
      rw [mark_node_of_dir]
      rfl
    · simp only [Bool.not_eq_true] at hd
      subst hd
      rfl

theorem mark_children_of_dir (S O : FileSet) (dirs anc : List String)
    (nm : String) (fs : List FileInfo) (ch : List (String × TreeNode)) (e : Bool) :
    (markEntireDirectoriesNew S O dirs anc (.node nm true fs ch e)).children =
      markEntireChildren S O dirs (if nm == "" then [] else anc ++ [nm]) ch := by
  rw [mark_node_of_dir]
  rfl

theorem prune_of_not_dir (t : TreeNode) (h : t.isDir = false) :
    removeEmptyDirectories t = (t, true) := by
  cases t with
  | node nm d fs ch e =>
    simp only [TreeNode.isDir] at h
    subst h
    rfl

theorem prune_name (t : TreeNode) : (removeEmptyDirectories t).1.name = t.name := by
  cases t with
  | node nm d fs ch e =>
    unfold removeEmptyDirectories
    by_cases hd : d <;> simp [hd, TreeNode.name]

theorem prune_isDir (t : TreeNode) : (removeEmptyDirectories t).1.isDir = t.isDir := by
  cases t with
  | node nm d fs ch e =>
    unfold removeEmptyDirectories
    by_cases hd : d <;> simp [hd, TreeNode.isDir]

theorem prune_files (t : TreeNode) : (removeEmptyDirectories t).1.files = t.files := by
  cases t with
  | node nm d fs ch e =>
    unfold removeEmptyDirectories
    by_cases hd : d <;> simp [hd, TreeNode.files]

theorem prune_isEntireDir (t : TreeNode) :
    (removeEmptyDirectories t).1.isEntireDir = t.isEntireDir := by
  cases t with
  | node nm d fs ch e =>
    unfold removeEmptyDirectories
    by_cases hd : d <;> simp [hd, TreeNode.isEntireDir]

theorem prune_children_of_dir (nm : String) (fs : List FileInfo)
    (ch : List (String × TreeNode)) (e : Bool) :
    (removeEmptyDirectories (.node nm true fs ch e)).1.children = pruneChildren ch := by
  unfold removeEmptyDirectories
  simp [TreeNode.children]

theorem mem_pruneChildren :
    ∀ (ch : List (String × TreeNode)) (q : String × TreeNode), q ∈ pruneChildren ch →
      ∃ kc ∈ ch, q = (kc.1, (removeEmptyDirectories kc.2).1) ∧
        (removeEmptyDirectories kc.2).2 = true := by
  intro ch
  induction ch with
  | nil => intro q hq; simp [pruneChildren] at hq
  | cons kc rest ih =>
    intro q hq
    obtain ⟨k, c⟩ := kc
    simp only [pruneChildren] at hq
    by_cases hkeep : (removeEmptyDirectories c).2
    · rw [if_pos hkeep] at hq
      rcases List.mem_cons.mp hq with h1 | h2
      · exact ⟨(k, c), List.mem_cons_self _ _, h1, hkeep⟩
      · obtain ⟨kc2, hm, he, hk2⟩ := ih q h2
        exact ⟨kc2, List.mem_cons_of_mem _ hm, he, hk2⟩
    · rw [if_neg hkeep] at hq
      obtain ⟨kc2, hm, he, hk2⟩ := ih q hq
      exact ⟨kc2, List.mem_cons_of_mem _ hm, he, hk2⟩

theorem markedSoundAll_own (S O : FileSet) (p : List String) (t : TreeNode)
    (h : markedSoundAll S O p t = true) (hd : t.isDir = true) (he : t.isEntireDir = true) :
    NoMatchBelowTree S O p t = true := by
  cases t with
  | node nm d fs ch e =>
    simp only [TreeNode.isDir] at hd
    simp only [TreeNode.isEntireDir] at he
    subst hd; subst he
    simp only [markedSoundAll, Bool.and_eq_true] at h
    simpa using h.1

theorem markedSoundAll_kids (S O : FileSet) (p : List String) (t : TreeNode)
    (h : markedSoundAll S O p t = true) :
    markedSoundKids S O p t.children = true := by
  cases t with
  | node nm d fs ch e =>
    simp only [markedSoundAll, Bool.and_eq_true] at h
    simpa [TreeNode.children] using h.2

theorem countP_and_le (p q : FileInfo → Bool) (l : List FileInfo) :
    l.countP (fun a => p a && q a) ≤ l.countP p :=
  List.countP_mono_left (fun b _ hb => ((Bool.and_eq_true _ _).mp hb).1)

theorem countP_and_eq_imp (p q : FileInfo → Bool) :
    ∀ l : List FileInfo, l.countP (fun a => p a && q a) = l.countP p →
      ∀ a ∈ l, p a = true → q a = true := by
  intro l
  induction l with
  | nil => intro _ a ha; simp at ha
  | cons x rest ih =>
    intro hcnt a ha hp
    have hle := countP_and_le p q rest
    rw [List.countP_cons, List.countP_cons] at hcnt
    rcases List.mem_cons.mp ha with h1 | h2
    · subst h1
      by_cases hq : q a = true
      · exact hq
      · exfalso
        simp only [Bool.not_eq_true] at hq
        simp only [hp, hq, Bool.and_false, Bool.true_and, if_true] at hcnt
        simp only [Bool.false_eq_true, if_false] at hcnt
        omega
    · refine ih ?_ a h2 hp
      by_cases hx : p x = true
      · by_cases hqx : q x = true
        · simp only [hx, hqx, Bool.and_true, if_true] at hcnt
          omega
        · simp only [Bool.not_eq_true] at hqx
          simp only [hx, hqx, Bool.and_false, if_true] at hcnt
          simp only [Bool.false_eq_true, if_false] at hcnt
          omega
      · simp only [Bool.not_eq_true] at hx
        simp only [hx, Bool.false_and] at hcnt
        simp only [Bool.false_eq_true, if_false] at hcnt
        omega

theorem mark_sound (S O : FileSet) (dirs : List String) :
    ∀ t, namesDirsOK t = true → ∀ anc : List String,
      markedSoundAll S O (if t.name == "" then [] else anc ++ [t.name])
        (markEntireDirectoriesNew S O dirs anc t) = true := by
  intro t
  induction t using TreeNode.inductionOn with
  | h nm d fs ch e ih =>
    intro hok anc
    simp only [namesDirsOK, Bool.and_eq_true] at hok
    obtain ⟨hd, hch⟩ := hok
    subst hd
    simp only [TreeNode.name]
    rw [mark_node_of_dir]
    have hchAll := (namesDirsOKChildren_eq_all ch) ▸ hch
    rw [List.all_eq_true] at hchAll
    -- the marked children all satisfy the invariant at their own paths
    have hkids : markedSoundKids S O (if nm == "" then [] else anc ++ [nm])
        (markEntireChildren S O dirs (if nm == "" then [] else anc ++ [nm]) ch) = true := by
      rw [markedSoundKids_eq_all, markEntireChildren_eq_map, List.all_eq_true]
      intro q hq
      rw [List.mem_map] at hq
      obtain ⟨kc, hm, hqe⟩ := hq
      subst hqe
      simp only
      rw [mark_name]
      have hkc := hchAll kc hm
      simp only [Bool.and_eq_true] at hkc
      obtain ⟨⟨hname, hnonempty⟩, hsub⟩ := hkc
      have hne : ¬((kc.2.name == "") = true) := by
        intro hcon
        have h1 : kc.2.name = kc.1 := beq_iff_eq.mp hname
        have h2 : kc.2.name = "" := beq_iff_eq.mp hcon
        rw [h2] at h1
        rw [← h1] at hnonempty
        simp at hnonempty
      have := ih kc hm hsub (if nm == "" then [] else anc ++ [nm])
      rw [if_neg hne] at this
      exact this
    rw [markedSoundAll, Bool.and_eq_true]
    refine ⟨?_, hkids⟩
    by_cases hef : markFlag S O dirs (if nm == "" then [] else anc ++ [nm]) nm
        (markEntireChildren S O dirs (if nm == "" then [] else anc ++ [nm]) ch) = true
    · rw [hef]
      simp only [Bool.and_true, Bool.not_true, Bool.false_or]
      -- extract the three marking criteria from the flag
      simp only [markFlag] at hef
      by_cases hnm : (nm == "") = true
      · rw [if_pos hnm] at hef
        simp at hef
      · rw [if_neg hnm] at hef
        by_cases hcont : dirs.contains
            (joinPath (if nm == "" then [] else anc ++ [nm])) = true
        · rw [if_neg (by rw [hcont]; simp)] at hef
          simp only [Bool.and_eq_true] at hef
          obtain ⟨⟨hcontent, hdirect⟩, hcc⟩ := hef
          rw [NoMatchBelowTree, Bool.and_eq_true]
          constructor
          · -- direct source files of this directory are unmatched
            rw [List.all_eq_true]
            intro f hf
            by_cases hp : (goDir f.RelativePath ==
                joinPath (if nm == "" then [] else anc ++ [nm])) = true
            · simp only [hp, Bool.not_true, Bool.false_or]
              rcases Bool.or_eq_true _ _ |>.mp hdirect with h0 | hEq
              · exfalso
                have := List.countP_eq_zero.mp (beq_iff_eq.mp h0) f hf
                exact this hp
              · simp only [Bool.and_eq_true] at hEq
                have hcexact := beq_iff_eq.mp hEq.2
                have := countP_and_eq_imp
                  (fun f => goDir f.RelativePath ==
                    joinPath (if nm == "" then [] else anc ++ [nm]))
                  (fun f => !mapHasKey O.HashMap f.Hash)
                  S.Files hcexact.symm f hf hp
                exact this
            · simp only [Bool.not_eq_true] at hp
              simp only [hp, Bool.not_false, Bool.true_or]
          · -- directory children of this node are recursively unmatched
            rw [NoMatchBelowChildren_eq_all, List.all_eq_true]
            intro kc2 hm2
            by_cases hdir2 : kc2.2.isDir = true
            · have hent2 : kc2.2.isEntireDir = true := by
                rcases Bool.or_eq_true _ _ |>.mp hcc with hnochild | hallent
                · exfalso
                  rw [Bool.not_eq_true', List.any_eq_false] at hnochild
                  exact (hnochild kc2 hm2) hdir2
                · rw [List.all_eq_true] at hallent
                  have := hallent kc2 hm2
                  rcases Bool.or_eq_true _ _ |>.mp this with hnd | he2
                  · rw [hdir2] at hnd
                    simp at hnd
                  · exact he2
              have hsound2 : markedSoundAll S O
                  ((if nm == "" then [] else anc ++ [nm]) ++ [kc2.2.name]) kc2.2 = true := by
                rw [markedSoundKids_eq_all, List.all_eq_true] at hkids
                exact hkids kc2 hm2
              have := markedSoundAll_own S O _ kc2.2 hsound2 hdir2 hent2
              rw [this]
              simp
            · simp only [Bool.not_eq_true] at hdir2
              simp [hdir2]
        · have hcf : dirs.contains
              (joinPath (if nm == "" then [] else anc ++ [nm])) = false := by
            cases hcb : dirs.contains (joinPath (if nm == "" then [] else anc ++ [nm]))
            · rfl
            · exact absurd hcb hcont
          rw [if_pos (by rw [hcf]; rfl)] at hef
          simp at hef
    · simp only [Bool.not_eq_true] at hef
      rw [hef]
      simp

-- ## Preservation of the invariants by marking and pruning

theorem setChild_mem :
    ∀ (ch : List (String × TreeNode)) (k : String) (v : TreeNode)
      (q : String × TreeNode), q ∈ setChild ch k v → q = (k, v) ∨ q ∈ ch := by
  intro ch k v
  induction ch with
  | nil =>
    intro q hq
    simp only [setChild, List.mem_singleton] at hq
    exact Or.inl hq
  | cons kc rest ih =>
    intro q hq
    simp only [setChild] at hq
    by_cases hk : (kc.1 == k) = true
    · rw [if_pos hk] at hq
      rcases List.mem_cons.mp hq with h1 | h2
      · left
        rw [h1, beq_iff_eq.mp hk]
      · right
        exact List.mem_cons_of_mem _ h2
    · rw [if_neg hk] at hq
      rcases List.mem_cons.mp hq with h1 | h2
      · right
        rw [h1]
        exact List.mem_cons_self _ _
      · rcases ih q h2 with h3 | h4
        · exact Or.inl h3
        · exact Or.inr (List.mem_cons_of_mem _ h4)

theorem lookupChild_mem (ch : List (String × TreeNode)) (k : String) (c : TreeNode)
    (h : lookupChild ch k = some c) : (k, c) ∈ ch := by
  unfold lookupChild at h
  cases hf : ch.find? (fun kc => kc.1 == k) with
  | none => rw [hf] at h; simp at h
  | some kc =>
    rw [hf] at h
    simp at h
    have hm := List.mem_of_find?_eq_some hf
    have hp := List.find?_some hf
    have hk : kc.1 = k := beq_iff_eq.mp hp
    obtain ⟨k1, c1⟩ := kc
    simp only at hk h
    subst hk
    subst h
    exact hm

theorem prune_node_of_dir (nm : String) (fs : List FileInfo)
    (ch : List (String × TreeNode)) (e : Bool) :
    (removeEmptyDirectories (.node nm true fs ch e)).1 =
      .node nm true fs (pruneChildren ch) e := by
  rfl

theorem prune_NoMatch (S O : FileSet) :
    ∀ t, ∀ p, NoMatchBelowTree S O p t = true →
      NoMatchBelowTree S O p (removeEmptyDirectories t).1 = true := by
  intro t
  induction t using TreeNode.inductionOn with
  | h nm d fs ch e ih =>
    intro p hnmB
    by_cases hd : d
    · subst hd
      rw [NoMatchBelowTree, Bool.and_eq_true] at hnmB
      obtain ⟨hdirect, hkids⟩ := hnmB
      rw [prune_node_of_dir, NoMatchBelowTree, Bool.and_eq_true]
      refine ⟨hdirect, ?_⟩
      rw [NoMatchBelowChildren_eq_all, List.all_eq_true]
      intro q hq
      obtain ⟨kc, hm, hqe, hkeep⟩ := mem_pruneChildren ch q hq
      subst hqe
      simp only
      rw [prune_isDir, prune_name]
      rw [NoMatchBelowChildren_eq_all, List.all_eq_true] at hkids
      have hkc := hkids kc hm
      by_cases hdir : kc.2.isDir = true
      · rw [hdir] at hkc ⊢
        simp only [Bool.not_true, Bool.false_or] at hkc ⊢
        exact ih kc hm _ hkc
      · simp only [Bool.not_eq_true] at hdir
        rw [hdir]
        rfl
    · simp only [Bool.not_eq_true] at hd
      subst hd
      rw [prune_of_not_dir (.node nm false fs ch e) rfl]
      exact hnmB

theorem prune_markedSoundAll (S O : FileSet) :
    ∀ t, ∀ p, markedSoundAll S O p t = true →
      markedSoundAll S O p (removeEmptyDirectories t).1 = true := by
  intro t
  induction t using TreeNode.inductionOn with
  | h nm d fs ch e ih =>
    intro p hms
    by_cases hd : d
    · subst hd
      rw [markedSoundAll, Bool.and_eq_true] at hms
      obtain ⟨hown, hkids⟩ := hms
      rw [prune_node_of_dir, markedSoundAll, Bool.and_eq_true]
      constructor
      · by_cases he : e = true
        · subst he
          simp only [Bool.and_true, Bool.not_true, Bool.false_or] at hown ⊢
          have := prune_NoMatch S O (.node nm true fs ch true) p hown
          rw [prune_node_of_dir] at this
          exact this
        · simp only [Bool.not_eq_true] at he
          subst he
          rfl
      · rw [markedSoundKids_eq_all, List.all_eq_true]
        intro q hq
        obtain ⟨kc, hm, hqe, hkeep⟩ := mem_pruneChildren ch q hq
        subst hqe
        simp only
        rw [prune_name]
        rw [markedSoundKids_eq_all, List.all_eq_true] at hkids
        exact ih kc hm _ (hkids kc hm)
    · simp only [Bool.not_eq_true] at hd
      subst hd
      rw [prune_of_not_dir (.node nm false fs ch e) rfl]
      exact hms

theorem prune_namesDirsOK :
    ∀ t, namesDirsOK t = true → namesDirsOK (removeEmptyDirectories t).1 = true := by
  intro t
  induction t using TreeNode.inductionOn with
  | h nm d fs ch e ih =>
    intro hok
    rw [namesDirsOK, Bool.and_eq_true] at hok
    obtain ⟨hd, hch⟩ := hok
    subst hd
    rw [prune_node_of_dir, namesDirsOK, Bool.and_eq_true]
    refine ⟨rfl, ?_⟩
    rw [namesDirsOKChildren_eq_all, List.all_eq_true]
    intro q hq
    obtain ⟨kc, hm, hqe, hkeep⟩ := mem_pruneChildren ch q hq
    subst hqe
    rw [namesDirsOKChildren_eq_all, List.all_eq_true] at hch
    have hkc := hch kc hm
    simp only [Bool.and_eq_true] at hkc ⊢
    obtain ⟨⟨h1, h2⟩, h3⟩ := hkc
    refine ⟨⟨?_, h2⟩, ih kc hm h3⟩
    rw [prune_name]
    exact h1

theorem prune_filesAtOK :
    ∀ t, ∀ p, filesAtOK p t = true → filesAtOK p (removeEmptyDirectories t).1 = true := by
  intro t
  induction t using TreeNode.inductionOn with
  | h nm d fs ch e ih =>
    intro p hok
    by_cases hd : d
    · subst hd
      rw [filesAtOK, Bool.and_eq_true] at hok
      obtain ⟨hfs, hch⟩ := hok
      rw [prune_node_of_dir, filesAtOK, Bool.and_eq_true]
      refine ⟨hfs, ?_⟩
      rw [filesAtChildrenOK_eq_all, List.all_eq_true]
      intro q hq
      obtain ⟨kc, hm, hqe, hkeep⟩ := mem_pruneChildren ch q hq
      subst hqe
      rw [filesAtChildrenOK_eq_all, List.all_eq_true] at hch
      exact ih kc hm _ (hch kc hm)
    · simp only [Bool.not_eq_true] at hd
      subst hd
      rw [prune_of_not_dir (.node nm false fs ch e) rfl]
      exact hok

theorem mark_namesDirsOK (S O : FileSet) (dirs : List String) :
    ∀ t, namesDirsOK t = true → ∀ anc,
      namesDirsOK (markEntireDirectoriesNew S O dirs anc t) = true := by
  intro t
  induction t using TreeNode.inductionOn with
  | h nm d fs ch e ih =>
    intro hok anc
    rw [namesDirsOK, Bool.and_eq_true] at hok
    obtain ⟨hd, hch⟩ := hok
    subst hd
    rw [mark_node_of_dir, namesDirsOK, Bool.and_eq_true]
    refine ⟨rfl, ?_⟩
    rw [namesDirsOKChildren_eq_all, markEntireChildren_eq_map, List.all_eq_true]
    intro q hq
    rw [List.mem_map] at hq
    obtain ⟨kc, hm, hqe⟩ := hq
    subst hqe
    rw [namesDirsOKChildren_eq_all, List.all_eq_true] at hch
    have hkc := hch kc hm
    simp only [Bool.and_eq_true] at hkc ⊢
    obtain ⟨⟨h1, h2⟩, h3⟩ := hkc
    refine ⟨⟨?_, h2⟩, ih kc hm h3 _⟩
    rw [mark_name]
    exact h1

theorem mark_filesAtOK (S O : FileSet) (dirs : List String) :
    ∀ t, ∀ p anc, filesAtOK p t = true →
      filesAtOK p (markEntireDirectoriesNew S O dirs anc t) = true := by
  intro t
  induction t using TreeNode.inductionOn with
  | h nm d fs ch e ih =>
    intro p anc hok
    by_cases hd : d
    · subst hd
      rw [filesAtOK, Bool.and_eq_true] at hok
      obtain ⟨hfs, hch⟩ := hok
      rw [mark_node_of_dir, filesAtOK, Bool.and_eq_true]
      refine ⟨hfs, ?_⟩
      rw [filesAtChildrenOK_eq_all, markEntireChildren_eq_map, List.all_eq_true]
      intro q hq
      rw [List.mem_map] at hq
      obtain ⟨kc, hm, hqe⟩ := hq
      subst hqe
      rw [filesAtChildrenOK_eq_all, List.all_eq_true] at hch
      exact ih kc hm _ _ (hch kc hm)
    · simp only [Bool.not_eq_true] at hd
      subst hd
      rw [mark_of_not_dir S O dirs anc (.node nm false fs ch e) rfl]
      exact hok

-- ## Navigation lemmas

theorem namesDirsOK_isDir (n : TreeNode) (h : namesDirsOK n = true) : n.isDir = true := by
  cases n
  rw [namesDirsOK, Bool.and_eq_true] at h
  exact h.1

theorem namesDirsOK_children (n : TreeNode) (h : namesDirsOK n = true) :
    ∀ kc ∈ n.children, kc.2.name = kc.1 ∧ kc.2.isDir = true ∧ kc.1 ≠ "" ∧
      namesDirsOK kc.2 = true := by
  cases n with
  | node nm d fs ch e =>
    rw [namesDirsOK, Bool.and_eq_true] at h
    intro kc hm
    rw [namesDirsOKChildren_eq_all, List.all_eq_true] at h
    have hkc := h.2 kc hm
    simp only [Bool.and_eq_true] at hkc
    obtain ⟨⟨h1, h2⟩, h3⟩ := hkc
    have hname : kc.2.name = kc.1 := beq_iff_eq.mp h1
    have hne : kc.1 ≠ "" := by
      intro hc
      rw [hc] at h2
      simp at h2
    exact ⟨hname, namesDirsOK_isDir kc.2 h3, hne, h3⟩

theorem filesAtOK_files (n : TreeNode) (p : List String) (h : filesAtOK p n = true) :
    ∀ f ∈ n.files, (splitPath f.RelativePath).dropLast = p := by
  cases n with
  | node nm d fs ch e =>
    rw [filesAtOK, Bool.and_eq_true] at h
    intro f hf
    rw [List.all_eq_true] at h
    exact beq_iff_eq.mp (h.1 f hf)

theorem filesAtOK_children (n : TreeNode) (p : List String) (h : filesAtOK p n = true) :
    ∀ kc ∈ n.children, filesAtOK (p ++ [kc.1]) kc.2 = true := by
  cases n with
  | node nm d fs ch e =>
    rw [filesAtOK, Bool.and_eq_true] at h
    intro kc hm
    have := h.2
    rw [filesAtChildrenOK_eq_all, List.all_eq_true] at this
    exact this kc hm

theorem nav_sound (S O : FileSet) :
    ∀ (q : List String) (t : TreeNode) (p : List String),
      markedSoundAll S O p t = true → namesDirsOK t = true →
      ∀ n, subtreeAt t q = some n → n.isEntireDir = true →
        NoMatchBelowTree S O (p ++ q) n = true := by
  intro q
  induction q with
  | nil =>
    intro t p hms hok n hsub he
    simp only [subtreeAt, Option.some.injEq] at hsub
    subst hsub
    rw [List.append_nil]
    exact markedSoundAll_own S O p t hms (namesDirsOK_isDir t hok) he
  | cons k rest ih =>
    intro t p hms hok n hsub he
    simp only [subtreeAt] at hsub
    cases hlc : lookupChild t.children k with
    | none => rw [hlc] at hsub; simp at hsub
    | some c =>
      rw [hlc] at hsub
      have hmem := lookupChild_mem _ _ _ hlc
      obtain ⟨hname, _, _, hsubok⟩ := namesDirsOK_children t hok (k, c) hmem
      have hkidsms := markedSoundAll_kids S O p t hms
      rw [markedSoundKids_eq_all, List.all_eq_true] at hkidsms
      have hcms := hkidsms (k, c) hmem
      simp only at hcms hname
      rw [hname] at hcms
      have := ih c (p ++ [k]) hcms hsubok n hsub he
      rwa [List.append_assoc, List.singleton_append] at this

theorem nav_shape :
    ∀ (q : List String) (t : TreeNode),
      namesDirsOK t = true → ∀ n, subtreeAt t q = some n →
        namesDirsOK n = true ∧ (q = [] → n = t) ∧
          (q ≠ [] → q.getLast? = some n.name ∧ n.name ≠ "") := by
  intro q
  induction q with
  | nil =>
    intro t hok n hsub
    simp only [subtreeAt, Option.some.injEq] at hsub
    subst hsub
    exact ⟨hok, fun _ => rfl, fun hc => absurd rfl hc⟩
  | cons k rest ih =>
    intro t hok n hsub
    simp only [subtreeAt] at hsub
    cases hlc : lookupChild t.children k with
    | none => rw [hlc] at hsub; simp at hsub
    | some c =>
      rw [hlc] at hsub
      have hmem := lookupChild_mem _ _ _ hlc
      obtain ⟨hname, _, hne, hsubok⟩ := namesDirsOK_children t hok (k, c) hmem
      simp only at hname
      obtain ⟨h1, h2, h3⟩ := ih c hsubok n hsub
      refine ⟨h1, fun hc => absurd hc (by simp), fun _ => ?_⟩
      cases hrest : rest with
      | nil =>
        subst hrest
        have hn : n = c := h2 rfl
        subst hn
        rw [hname]
        exact ⟨rfl, hname ▸ hne⟩
      | cons r1 rs =>
        subst hrest
        have := h3 (by simp)
        rw [List.getLast?_cons_cons]
        exact this

theorem nav_files :
    ∀ (q : List String) (t : TreeNode) (p : List String),
      filesAtOK p t = true → ∀ n, subtreeAt t q = some n →
        filesAtOK (p ++ q) n = true := by
  intro q
  induction q with
  | nil =>
    intro t p hok n hsub
    simp only [subtreeAt, Option.some.injEq] at hsub
    subst hsub
    rwa [List.append_nil]
  | cons k rest ih =>
    intro t p hok n hsub
    simp only [subtreeAt] at hsub
    cases hlc : lookupChild t.children k with
    | none => rw [hlc] at hsub; simp at hsub
    | some c =>
      rw [hlc] at hsub
      have hmem := lookupChild_mem _ _ _ hlc
      have hcok := filesAtOK_children t p hok (k, c) hmem
      simp only at hcok
      have := ih c (p ++ [k]) hcok n hsub
      rwa [List.append_assoc, List.singleton_append] at this

-- ## Invariants of the tree builders

theorem insert_name (file : FileInfo) :
    ∀ (parts : List String) (t : TreeNode), (insertFileParts file parts t).name = t.name := by
  intro parts t
  match parts, t with
  | [], t => rfl
  | [x], .node nm d fs ch e => rfl
  | p1 :: p2 :: rest, .node nm d fs ch e => rfl

theorem newDirNode_namesDirsOK (part : String) : namesDirsOK (newDirNode part) = true := by
  rfl

theorem insert_namesDirsOK (file : FileInfo) :
    ∀ (parts : List String) (t : TreeNode), namesDirsOK t = true →
      (∀ s ∈ parts.dropLast, s ≠ "") →
      namesDirsOK (insertFileParts file parts t) = true := by
  intro parts
  induction parts with
  | nil => intro t hok _; exact hok
  | cons p1 tail ih =>
    intro t hok hclean
    cases t with
    | node nm d fs ch e =>
      cases tail with
      | nil =>
        show namesDirsOK (.node nm d (fs ++ [file]) ch e) = true
        rw [namesDirsOK, Bool.and_eq_true] at hok ⊢
        exact hok
      | cons p2 rest =>
        rw [namesDirsOK, Bool.and_eq_true] at hok
        obtain ⟨hd, hch⟩ := hok
        show namesDirsOK (.node nm d fs
          (setChild ch p1 (insertFileParts file (p2 :: rest)
            ((lookupChild ch p1).getD (newDirNode p1)))) e) = true
        rw [namesDirsOK, Bool.and_eq_true]
        refine ⟨hd, ?_⟩
        rw [namesDirsOKChildren_eq_all, List.all_eq_true]
        intro q hq
        have hp1ne : p1 ≠ "" := hclean p1 (by
          have : (p1 :: p2 :: rest).dropLast = p1 :: (p2 :: rest).dropLast := rfl
          rw [this]
          exact List.mem_cons_self _ _)
        have htailclean : ∀ s ∈ (p2 :: rest).dropLast, s ≠ "" := by
          intro s hs
          refine hclean s ?_
          have : (p1 :: p2 :: rest).dropLast = p1 :: (p2 :: rest).dropLast := rfl
          rw [this]
          exact List.mem_cons_of_mem _ hs
        rcases setChild_mem ch p1 _ q hq with hqe | hqm
        · subst hqe
          simp only [Bool.and_eq_true]
          have hchildok : namesDirsOK ((lookupChild ch p1).getD (newDirNode p1)) = true ∧
              ((lookupChild ch p1).getD (newDirNode p1)).name = p1 := by
            cases hlc : lookupChild ch p1 with
            | none => exact ⟨newDirNode_namesDirsOK p1, rfl⟩
            | some c =>
              have hmem := lookupChild_mem _ _ _ hlc
              rw [namesDirsOKChildren_eq_all, List.all_eq_true] at hch
              have hkc := hch (p1, c) hmem
              simp only [Bool.and_eq_true] at hkc
              exact ⟨hkc.2, beq_iff_eq.mp hkc.1.1⟩
          refine ⟨⟨?_, ?_⟩, ih _ hchildok.1 htailclean⟩
          · rw [insert_name]
            exact beq_iff_eq.mpr hchildok.2
          · simp [hp1ne]
        · rw [namesDirsOKChildren_eq_all, List.all_eq_true] at hch
          exact hch q hqm

theorem insert_filesAtOK (file : FileInfo) :
    ∀ (parts : List String) (t : TreeNode) (p : List String),
      filesAtOK p t = true → splitPath file.RelativePath = p ++ parts →
      filesAtOK p (insertFileParts file parts t) = true := by
  intro parts
  induction parts with
  | nil => intro t p hok _; exact hok
  | cons p1 tail ih =>
    intro t p hok hsp
    cases t with
    | node nm d fs ch e =>
      cases tail with
      | nil =>
        rw [filesAtOK, Bool.and_eq_true] at hok
        show filesAtOK p (.node nm d (fs ++ [file]) ch e) = true
        rw [filesAtOK, Bool.and_eq_true]
        refine ⟨?_, hok.2⟩
        rw [List.all_append, Bool.and_eq_true]
        refine ⟨hok.1, ?_⟩
        simp only [List.all_cons, List.all_nil, Bool.and_true]
        rw [hsp]
        exact beq_iff_eq.mpr (by simp)
      | cons p2 rest =>
        rw [filesAtOK, Bool.and_eq_true] at hok
        obtain ⟨hfs, hch⟩ := hok
        show filesAtOK p (.node nm d fs
          (setChild ch p1 (insertFileParts file (p2 :: rest)
            ((lookupChild ch p1).getD (newDirNode p1)))) e) = true
        rw [filesAtOK, Bool.and_eq_true]
        refine ⟨hfs, ?_⟩
        rw [filesAtChildrenOK_eq_all, List.all_eq_true]
        intro q hq
        rcases setChild_mem ch p1 _ q hq with hqe | hqm
        · subst hqe
          simp only
          have hchildok : filesAtOK (p ++ [p1]) ((lookupChild ch p1).getD (newDirNode p1)) = true := by
            cases hlc : lookupChild ch p1 with
            | none => rfl
            | some c =>
              have hmem := lookupChild_mem _ _ _ hlc
              rw [filesAtChildrenOK_eq_all, List.all_eq_true] at hch
              exact hch (p1, c) hmem
          refine ih _ (p ++ [p1]) hchildok ?_
          rw [hsp, List.append_assoc, List.singleton_append]
        · rw [filesAtChildrenOK_eq_all, List.all_eq_true] at hch
          exact hch q hqm

theorem fold_insert_name :
    ∀ (files : List FileInfo) (t : TreeNode),
      (files.foldl (fun t2 file => insertFileParts file (splitPath file.RelativePath) t2)
        t).name = t.name := by
  intro files
  induction files with
  | nil => intro t; rfl
  | cons f rest ih =>
    intro t
    rw [List.foldl_cons, ih, insert_name]

theorem fold_insert_namesDirsOK :
    ∀ (files : List FileInfo) (t : TreeNode), namesDirsOK t = true →
      (∀ f ∈ files, ∀ s ∈ (splitPath f.RelativePath).dropLast, s ≠ "") →
      namesDirsOK
        (files.foldl (fun t2 file => insertFileParts file (splitPath file.RelativePath) t2)
          t) = true := by
  intro files
  induction files with
  | nil => intro t hok _; exact hok
  | cons f rest ih =>
    intro t hok hclean
    rw [List.foldl_cons]
    refine ih _ ?_ (fun g hg => hclean g (List.mem_cons_of_mem _ hg))
    exact insert_namesDirsOK f _ t hok (hclean f (List.mem_cons_self _ _))

theorem fold_insert_filesAtOK :
    ∀ (files : List FileInfo) (t : TreeNode), filesAtOK [] t = true →
      filesAtOK []
        (files.foldl (fun t2 file => insertFileParts file (splitPath file.RelativePath) t2)
          t) = true := by
  intro files
  induction files with
  | nil => intro t hok; exact hok
  | cons f rest ih =>
    intro t hok
    rw [List.foldl_cons]
    exact ih _ (insert_filesAtOK f _ t [] hok rfl)

-- ## Pruning idempotence

theorem prune_node_pair (nm : String) (fs : List FileInfo)
    (ch : List (String × TreeNode)) (e : Bool) :
    removeEmptyDirectories (.node nm true fs ch e) =
      (.node nm true fs (pruneChildren ch) e, !fs.isEmpty || !(pruneChildren ch).isEmpty) := by
  rfl

theorem removeEmptyDirectories_idem_aux :
    ∀ t, removeEmptyDirectories (removeEmptyDirectories t).1 = removeEmptyDirectories t := by
  intro t
  induction t using TreeNode.inductionOn with
  | h nm d fs ch e ih =>
    by_cases hd : d
    · subst hd
      have key : ∀ cl : List (String × TreeNode),
          (∀ p ∈ cl, removeEmptyDirectories (removeEmptyDirectories p.2).1 =
            removeEmptyDirectories p.2) →
          pruneChildren (pruneChildren cl) = pruneChildren cl := by
        intro cl
        induction cl with
        | nil => intro _; rfl
        | cons kc rest ihc =>
          intro hall
          obtain ⟨k, c⟩ := kc
          have hc := hall (k, c) (List.mem_cons_self _ _)
          simp only at hc
          have htl := ihc (fun p hp => hall p (List.mem_cons_of_mem _ hp))
          by_cases hb : (removeEmptyDirectories c).2 = true
          · have hstep : pruneChildren ((k, c) :: rest) =
                (k, (removeEmptyDirectories c).1) :: pruneChildren rest := by
              simp [pruneChildren, hb]
            rw [hstep]
            have h2 : removeEmptyDirectories (removeEmptyDirectories c).1 =
                ((removeEmptyDirectories c).1, true) := by
              rw [hc]
              exact Prod.ext rfl hb
            have hstep2 : pruneChildren ((k, (removeEmptyDirectories c).1) :: pruneChildren rest)
                = (k, (removeEmptyDirectories c).1) :: pruneChildren (pruneChildren rest) := by
              simp [pruneChildren, h2]
            rw [hstep2, htl]
          · have hstep : pruneChildren ((k, c) :: rest) = pruneChildren rest := by
              simp only [pruneChildren]
              rw [if_neg hb]
            rw [hstep, htl]
      rw [prune_node_pair]
      show removeEmptyDirectories (.node nm true fs (pruneChildren ch) e) = _
      rw [prune_node_pair, key ch ih]
    · simp only [Bool.not_eq_true] at hd
      subst hd
      have h := prune_of_not_dir (.node nm false fs ch e) rfl
      rw [h]
      exact h

/-- C8.  Pruning idempotence: applying `removeEmptyDirectories` to the
tree left by a first application removes nothing and returns the same
keep verdict, and a file (non-directory) node is always kept unchanged. -/
theorem pruning_idempotent (t : TreeNode) :
    removeEmptyDirectories (removeEmptyDirectories t).1 = removeEmptyDirectories t ∧
      (t.isDir = false → removeEmptyDirectories t = (t, true)) :=
  ⟨removeEmptyDirectories_idem_aux t, prune_of_not_dir t⟩

-- ## Assembly of the collapse-soundness and well-formedness results

theorem wf_from_invariants (t : TreeNode) (hok : namesDirsOK t = true)
    (hfa : filesAtOK [] t = true) (hroot : t.name = "") :
    ∀ (q : List String) (n : TreeNode), subtreeAt t q = some n →
      n.isDir = true ∧
      (∀ kc ∈ n.children, kc.2.name = kc.1 ∧ kc.2.isDir = true ∧ kc.1 ≠ "") ∧
      (n.name = "" ↔ q = []) ∧
      (q ≠ [] → q.getLast? = some n.name) ∧
      (∀ f ∈ n.files, (splitPath f.RelativePath).dropLast = q) := by
  intro q n hsub
  obtain ⟨hokn, hqnil, hqne⟩ := nav_shape q t hok n hsub
  have hfan := nav_files q t [] hfa n hsub
  rw [List.nil_append] at hfan
  refine ⟨namesDirsOK_isDir n hokn, ?_, ?_, fun hq => (hqne hq).1, filesAtOK_files n q hfan⟩
  · intro kc hm
    obtain ⟨a, b, c, _⟩ := namesDirsOK_children n hokn kc hm
    exact ⟨a, b, c⟩
  · constructor
    · intro hne
      by_contra hq
      exact ((hqne hq).2) hne
    · intro hq
      rw [hqnil hq]
      exact hroot

/-- C1 (amended).  Collapse soundness as the code actually guarantees it:
in the tree built by `buildSmartTree` from unique-file list `U`, source
catalog `S` and other catalog `O` (with clean relative paths in `U`),
any node marked entire satisfies `NoMatchBelowTree`: no record of `S`
directly inside the node's directory, or directly inside any directory
that appears in the node's subtree of the display tree, has a fingerprint
match in `O`.  Source records in subdirectories that contributed no file
to `U` (hence no tree node) are not covered — see the counterexample. -/
theorem collapse_soundness_amended (U : List FileInfo) (S O : FileSet)
    (hclean : ∀ f ∈ U, ∀ s ∈ (splitPath f.RelativePath).dropLast, s ≠ "")
    (q : List String) (n : TreeNode)
    (hsub : subtreeAt (buildSmartTree U S O) q = some n)
    (hent : n.isEntireDir = true) :
    NoMatchBelowTree S O q n = true := by
  have hdef : buildSmartTree U S O =
      (removeEmptyDirectories (markEntireDirectoriesNew S O (directoriesInSourceSet S) []
        (U.foldl (fun t file => insertFileParts file (splitPath file.RelativePath) t)
          emptyRoot))).1 := rfl
  have hok0 : namesDirsOK
      (U.foldl (fun t file => insertFileParts file (splitPath file.RelativePath) t)
        emptyRoot) = true :=
    fold_insert_namesDirsOK U emptyRoot rfl hclean
  have hname0 : (U.foldl (fun t file => insertFileParts file (splitPath file.RelativePath) t)
      emptyRoot).name = "" := fold_insert_name U emptyRoot
  have hms1 := mark_sound S O (directoriesInSourceSet S)
    (U.foldl (fun t file => insertFileParts file (splitPath file.RelativePath) t) emptyRoot)
    hok0 []
  rw [hname0] at hms1
  simp only [beq_self_eq_true, if_true] at hms1
  have hok1 := mark_namesDirsOK S O (directoriesInSourceSet S)
    (U.foldl (fun t file => insertFileParts file (splitPath file.RelativePath) t) emptyRoot)
    hok0 []
  have hms2 := prune_markedSoundAll S O _ [] hms1
  have hok2 := prune_namesDirsOK _ hok1
  rw [hdef] at hsub
  have := nav_sound S O q _ [] hms2 hok2 n hsub hent
  rwa [List.nil_append] at this

/-- C10.  Tree well-formedness of both builders: every reachable node is a
directory whose children are stored under their own nonempty names (only
the root is named `""`), the name of the node reached by key path `q` is
the last key of `q` — so joining the names up the parent chain rebuilds
`q` — and every record attached there has exactly `q` as the segment list
of its parent directory. -/
theorem tree_wellformed (files : List FileInfo) (S O : FileSet)
    (hclean : ∀ f ∈ files, ∀ s ∈ (splitPath f.RelativePath).dropLast, s ≠ "") :
    (∀ (q : List String) (n : TreeNode), subtreeAt (buildTree files) q = some n →
        n.isDir = true ∧
        (∀ kc ∈ n.children, kc.2.name = kc.1 ∧ kc.2.isDir = true ∧ kc.1 ≠ "") ∧
        (n.name = "" ↔ q = []) ∧
        (q ≠ [] → q.getLast? = some n.name) ∧
        (∀ f ∈ n.files, (splitPath f.RelativePath).dropLast = q)) ∧
    (∀ (q : List String) (n : TreeNode), subtreeAt (buildSmartTree files S O) q = some n →
        n.isDir = true ∧
        (∀ kc ∈ n.children, kc.2.name = kc.1 ∧ kc.2.isDir = true ∧ kc.1 ≠ "") ∧
        (n.name = "" ↔ q = []) ∧
        (q ≠ [] → q.getLast? = some n.name) ∧
        (∀ f ∈ n.files, (splitPath f.RelativePath).dropLast = q)) := by
  have hok0 : namesDirsOK
      (files.foldl (fun t file => insertFileParts file (splitPath file.RelativePath) t)
        emptyRoot) = true :=
    fold_insert_namesDirsOK files emptyRoot rfl hclean
  have hfa0 : filesAtOK []
      (files.foldl (fun t file => insertFileParts file (splitPath file.RelativePath) t)
        emptyRoot) = true :=
    fold_insert_filesAtOK files emptyRoot rfl
  have hname0 : (files.foldl
      (fun t file => insertFileParts file (splitPath file.RelativePath) t)
      emptyRoot).name = "" := fold_insert_name files emptyRoot
  constructor
  · exact wf_from_invariants _ hok0 hfa0 hname0
  · have hok1 := mark_namesDirsOK S O (directoriesInSourceSet S) _ hok0 []
    have hfa1 := mark_filesAtOK S O (directoriesInSourceSet S) _ [] [] hfa0
    have hok2 := prune_namesDirsOK _ hok1
    have hfa2 := prune_filesAtOK _ [] hfa1
    have hname2 : (buildSmartTree files S O).name = "" := by
      show ((removeEmptyDirectories (markEntireDirectoriesNew S O (directoriesInSourceSet S) []
        (files.foldl (fun t file => insertFileParts file (splitPath file.RelativePath) t)
          emptyRoot))).1).name = ""
      rw [prune_name, mark_name]
      exact hname0
    exact wf_from_invariants _ hok2 hfa2 hname2

-- ## Concrete fixtures for counterexamples and witnesses

/-- A unique file directly under `dir/` with unmatched content. -/
def fiDirA : FileInfo := ⟨"dir/a.txt", "/set2/dir/a.txt", "a.txt", "h1", 1, "/set2"⟩

/-- A source file in `dir/sub/` whose content does match the other set. -/
def fiSubB : FileInfo := ⟨"dir/sub/b.txt", "/set2/dir/sub/b.txt", "b.txt", "h2", 2, "/set2"⟩

/-- The matching record (same fingerprint as `fiSubB`, different name). -/
def fiOtherC : FileInfo := ⟨"c.txt", "/set1/c.txt", "c.txt", "h2", 2, "/set1"⟩

def sampleSourceSet : FileSet := buildFileSet [fiDirA, fiSubB]

def sampleOtherSet : FileSet := buildFileSet [fiOtherC]

def sampleUnique : List FileInfo := [fiDirA]

/-- The node `buildSmartTree` produces for `dir` on the sample data. -/
def sampleEntireNode : TreeNode := .node "dir" true [fiDirA] [] true

/-- C1 counterexample: on the sample data the node for `dir` is marked
entire, yet the source record `dir/sub/b.txt` — which lies strictly
beneath `dir` (in a subdirectory that contributed no unique file) — has a
fingerprint match in the other set.  So the claim as stated (no record of
S anywhere beneath an entire-marked directory has a match in O) is false
of the code. -/
theorem collapse_soundness_counterexample :
    (subtreeAt (buildSmartTree sampleUnique sampleSourceSet sampleOtherSet) ["dir"]).map
        TreeNode.isEntireDir = some true
    ∧ fiSubB ∈ sampleSourceSet.Files
    ∧ (splitPath fiSubB.RelativePath).dropLast.take 1 = ["dir"]
    ∧ (splitPath fiSubB.RelativePath).dropLast ≠ ["dir"]
    ∧ mapHasKey sampleOtherSet.HashMap fiSubB.Hash = true := by
  refine ⟨by rfl, by decide, by decide, by decide, by rfl⟩

theorem collapse_soundness_amended_witness :
    (∀ f ∈ sampleUnique, ∀ s ∈ (splitPath f.RelativePath).dropLast, s ≠ "") ∧
    NoMatchBelowTree sampleSourceSet sampleOtherSet ["dir"] sampleEntireNode = true :=
  ⟨by decide,
    collapse_soundness_amended sampleUnique sampleSourceSet sampleOtherSet (by decide)
      ["dir"] sampleEntireNode (by rfl) (by rfl)⟩

theorem tree_wellformed_witness :
    (∀ f ∈ sampleUnique, ∀ s ∈ (splitPath f.RelativePath).dropLast, s ≠ "") ∧
    ((buildTree sampleUnique).name = "" ↔ ([] : List String) = []) :=
  ⟨by decide,
    ((tree_wellformed sampleUnique sampleSourceSet sampleOtherSet (by decide)).1
      [] (buildTree sampleUnique) rfl).2.2.1⟩

theorem pruning_idempotent_witness :
    removeEmptyDirectories (.node "a.txt" false [] [] false) =
      (.node "a.txt" false [] [] false, true) :=
  (pruning_idempotent (.node "a.txt" false [] [] false)).2 rfl

-- ## Scanner model

/-- Go struct `FileTask` (one enumerated candidate file; `Info os.FileInfo`
contributes only its `Name()` and `Size()`). -/
structure FileTask where
  Path : String
  Name : String
  Size : Int
  RootDir : String
  RelPath : String
deriving DecidableEq, Repr

/-- The `&FileInfo{...}` literal built from a task and its hash (same in
`hashWorker` and `processFilesSequentially`). -/
def taskFileInfo (task : FileTask) (hash : String) : FileInfo :=
  { RelativePath := task.RelPath
    AbsolutePath := task.Path
    Name := task.Name
    Hash := hash
    Size := task.Size
    RootDir := task.RootDir }

/-- Go `processFilesSequentially`: hash each task in order on the calling
thread; a hashing error prints a warning and skips the file (the Go
function always returns a nil error). -/
def processFilesSequentially (hashFile : String → Option String)
    (tasks : List FileTask) : FileSet :=
  tasks.foldl
    (fun fileSet task =>
      match hashFile task.Path with
      | none => fileSet
      | some hash => insertRecord fileSet (taskFileInfo task hash))
    emptyFileSet

/-- Go `const minFilesForParallelization = 20`. -/
def minFilesForParallelization : Nat := 20

/-- Go `const minBatchSize = 10`. -/
def minBatchSize : Nat := 10

/-- Go `numWorkers := int(float64(runtime.NumCPU()) * 0.75); if < 1 { 1 }`.
For machine integers in range, `int(x * 0.75)` is exactly `3*x/4` in
natural division (0.75 and 3x are exactly representable). -/
def numWorkersFor (numCPU : Nat) : Nat := max 1 (3 * numCPU / 4)

/-- Go `batchSize := len(tasks) / (numWorkers * 2); if < minBatchSize {...}`. -/
def batchSizeFor (numCPU taskCount : Nat) : Nat :=
  max minBatchSize (taskCount / (numWorkersFor numCPU * 2))

/-- The batching loop `for i := 0; i < len(tasks); i += batchSize` of
`processFilesInParallel` (callers always pass `batchSize ≥ 10`). -/
def chunkList (batchSize : Nat) : List FileTask → List (List FileTask)
  | [] => []
  | t :: ts => ((t :: ts).take batchSize) :: chunkList batchSize (ts.drop (batchSize - 1))
termination_by l => l.length
decreasing_by
  simp only [List.length_drop, List.length_cons]
  omega

/-- Go `hashWorker` on one batch: the `FileInfos` (successes, in batch
order) of the `FileResult` it sends; errors are collected separately and
only warned about by the collector. -/
def hashBatchSuccesses (hashFile : String → Option String) (batch : List FileTask) :
    List FileInfo :=
  batch.filterMap (fun task => (hashFile task.Path).map (taskFileInfo task))

/-- Go `processFilesInParallel`: split the tasks into batches, hand them
to the worker pool, and fold every `FileResult` arriving on the results
channel into the catalog.  Concurrency makes the arrival order an
arbitrary reordering of the batch list; it is modelled by the `schedule`
parameter (theorems assume it permutes its input).  The Go function
always returns a nil error. -/
def processFilesInParallel (hashFile : String → Option String) (numCPU : Nat)
    (schedule : List (List FileTask) → List (List FileTask))
    (tasks : List FileTask) : FileSet :=
  let batchSize := batchSizeFor numCPU tasks.length
  let jobs := chunkList batchSize tasks
  let arrivals := schedule jobs
  buildFileSet ((arrivals.map (hashBatchSuccesses hashFile)).flatten)

/-- The strategy selection at the end of `walkDirectoriesWithLimit`:
below `minFilesForParallelization` enumerated files process sequentially,
otherwise in parallel. -/
def scanDispatch (hashFile : String → Option String) (numCPU : Nat)
    (schedule : List (List FileTask) → List (List FileTask))
    (tasks : List FileTask) : FileSet :=
  if tasks.length < minFilesForParallelization then
    processFilesSequentially hashFile tasks
  else processFilesInParallel hashFile numCPU schedule tasks

/-- One callback invocation of the `filepath.Walk` closure in
`walkDirectoriesWithLimit`: an entry whose access failed (`err != nil`),
a directory entry, or a regular-file entry carrying its task data. -/
inductive WalkEvent where
  | accessErr (path : String)
  | dirEntry (path : String)
  | fileEntry (task : FileTask)
deriving DecidableEq, Repr

/-- What one root directory contributes to the scan: whether `os.Stat`
found it, the sequence of walk callback invocations, and an optional
structural failure reported by the `filepath.Walk` mechanism itself (the
callback never returns a non-nil error other than `SkipAll`, which `Walk`
converts to nil; `walkErr` models only mechanism-level failure). -/
structure RootDirWalk where
  dirExists : Bool
  events : List WalkEvent
  walkErr : Option String
deriving DecidableEq, Repr

/-- The task of a file entry, if the event is one. -/
def eventTask : WalkEvent → Option FileTask
  | .fileEntry task => some task
  | _ => none

/-- The walk callback over one root's events: access errors and
directories are skipped with a warning; a file entry is capped by
`limit` (`SkipAll` abandons the rest of this root's walk) or else counted
and collected. -/
def walkRoot (limit : Int) : Nat → List WalkEvent → List FileTask × Nat
  | count, [] => ([], count)
  | count, .accessErr _ :: rest => walkRoot limit count rest
  | count, .dirEntry _ :: rest => walkRoot limit count rest
  | count, .fileEntry task :: rest =>
    if 0 < limit ∧ limit ≤ (count : Int) then ([], count)
    else
      let r := walkRoot limit (count + 1) rest
      (task :: r.1, r.2)

/-- The enumeration loop of `walkDirectoriesWithLimit` over the roots:
nonexistent roots are skipped with a warning; a structural walk failure
aborts the scan with an error; otherwise the collected tasks accumulate
across roots under the shared counter. -/
def walkEnumerate (limit : Int) : Nat → List RootDirWalk → Except String (List FileTask)
  | _, [] => .ok []
  | count, ⟨false, _, _⟩ :: rest => walkEnumerate limit count rest
  | _, ⟨true, _, some e⟩ :: _ => .error ("error walking directory " ++ e)
  | count, ⟨true, events, none⟩ :: rest =>
    (walkEnumerate limit (walkRoot limit count events).2 rest).map
      (fun more => (walkRoot limit count events).1 ++ more)

/-- Go `walkDirectoriesWithLimit`: enumerate all candidate files across
the roots, then hash them with the chosen strategy.  Only an enumeration
failure is an error; both hashing paths return nil errors in Go. -/
def walkDirectoriesWithLimit (hashFile : String → Option String) (numCPU : Nat)
    (schedule : List (List FileTask) → List (List FileTask))
    (dirs : List RootDirWalk) (limit : Int) : Except String FileSet :=
  (walkEnumerate limit 0 dirs).map (scanDispatch hashFile numCPU schedule)

/-- Go `walkDirectories`: the unlimited scan, delegating with limit -1. -/
def walkDirectories (hashFile : String → Option String) (numCPU : Nat)
    (schedule : List (List FileTask) → List (List FileTask))
    (dirs : List RootDirWalk) : Except String FileSet :=
  walkDirectoriesWithLimit hashFile numCPU schedule dirs (-1)

/-- Success test of the scan call. -/
def scanOk {α : Type} : Except String α → Bool
  | .ok _ => true
  | .error _ => false

-- ## Scanner lemmas

theorem foldl_insertRecord_Files :
    ∀ (l : List FileInfo) (fs : FileSet), (l.foldl insertRecord fs).Files = fs.Files ++ l := by
  intro l
  induction l with
  | nil => intro fs; simp
  | cons fi rest ih =>
    intro fs
    rw [List.foldl_cons, ih]
    show fs.Files ++ [fi] ++ rest = fs.Files ++ fi :: rest
    rw [List.append_assoc, List.singleton_append]

theorem buildFileSet_Files (l : List FileInfo) : (buildFileSet l).Files = l := by
  rw [buildFileSet, foldl_insertRecord_Files]
  rfl

theorem processFilesSequentially_eq_buildFold (hashFile : String → Option String) :
    ∀ (tasks : List FileTask) (fs : FileSet),
      tasks.foldl
        (fun fileSet task =>
          match hashFile task.Path with
          | none => fileSet
          | some hash => insertRecord fileSet (taskFileInfo task hash)) fs =
      (tasks.filterMap (fun task => (hashFile task.Path).map (taskFileInfo task))).foldl
        insertRecord fs := by
  intro tasks
  induction tasks with
  | nil => intro fs; rfl
  | cons t rest ih =>
    intro fs
    rw [List.foldl_cons, List.filterMap_cons]
    cases h : hashFile t.Path with
    | none => simp only [h, Option.map_none]; exact ih fs
    | some hv => simp only [h, Option.map_some, List.foldl_cons]; exact ih _

theorem processFilesSequentially_Files (hashFile : String → Option String)
    (tasks : List FileTask) :
    (processFilesSequentially hashFile tasks).Files =
      tasks.filterMap (fun task => (hashFile task.Path).map (taskFileInfo task)) := by
  rw [processFilesSequentially, processFilesSequentially_eq_buildFold,
    foldl_insertRecord_Files]
  rfl

theorem perm_flatten {α : Type} {l1 l2 : List (List α)} (h : l1.Perm l2) :
    l1.flatten.Perm l2.flatten := by
  induction h with
  | nil => exact List.Perm.refl _
  | cons x _ ih =>
    simp only [List.flatten_cons]
    exact ih.append_left x
  | swap x y l =>
    simp only [List.flatten_cons]
    rw [← List.append_assoc, ← List.append_assoc]
    exact List.perm_append_comm.append_right _
  | trans _ _ ih1 ih2 => exact ih1.trans ih2

theorem flatten_map_hashBatch (hashFile : String → Option String) :
    ∀ L : List (List FileTask),
      (L.map (hashBatchSuccesses hashFile)).flatten =
        L.flatten.filterMap (fun task => (hashFile task.Path).map (taskFileInfo task)) := by
  intro L
  induction L with
  | nil => rfl
  | cons b rest ih =>
    simp only [List.map_cons, List.flatten_cons, hashBatchSuccesses, ih]
    rw [List.filterMap_append]

theorem chunkList_flatten_aux (batchSize : Nat) (hbs : 1 ≤ batchSize) :
    ∀ (n : Nat) (l : List FileTask), l.length ≤ n → (chunkList batchSize l).flatten = l := by
  intro n
  induction n with
  | zero =>
    intro l hl
    have h0 : l = [] := List.eq_nil_of_length_eq_zero (Nat.le_zero.mp hl)
    subst h0
    simp [chunkList]
  | succ m ihm =>
    intro l hl
    cases l with
    | nil => simp [chunkList]
    | cons x xs =>
      rw [chunkList, List.flatten_cons]
      have hlen : (xs.drop (batchSize - 1)).length ≤ m := by
        rw [List.length_drop]
        simp only [List.length_cons] at hl
        omega
      rw [ihm _ hlen]
      cases batchSize with
      | zero => omega
      | succ b =>
        have ht : (x :: xs).take (b + 1) = x :: xs.take b := rfl
        have hd : b + 1 - 1 = b := rfl
        rw [ht, hd, List.cons_append, List.take_append_drop]

theorem chunkList_flatten (batchSize : Nat) (hbs : 1 ≤ batchSize) (l : List FileTask) :
    (chunkList batchSize l).flatten = l :=
  chunkList_flatten_aux batchSize hbs l.length l (Nat.le_refl _)

theorem batchSizeFor_pos (numCPU taskCount : Nat) : 1 ≤ batchSizeFor numCPU taskCount :=
  Nat.le_trans (by decide) (Nat.le_max_left minBatchSize _)

theorem processFilesInParallel_Files (hashFile : String → Option String) (numCPU : Nat)
    (schedule : List (List FileTask) → List (List FileTask)) (tasks : List FileTask)
    (hsched : ∀ js, (schedule js).Perm js) :
    (processFilesInParallel hashFile numCPU schedule tasks).Files.Perm
      (tasks.filterMap (fun task => (hashFile task.Path).map (taskFileInfo task))) := by
  simp only [processFilesInParallel]
  rw [buildFileSet_Files, flatten_map_hashBatch]
  have h2 := perm_flatten (hsched (chunkList (batchSizeFor numCPU tasks.length) tasks))
  rw [chunkList_flatten _ (batchSizeFor_pos _ _)] at h2
  exact h2.filterMap _

/-- C4.  Sequential/parallel refinement: the threshold is 20 enumerated
files — strictly fewer go through `processFilesSequentially`, 20 or more
through `processFilesInParallel` — and on the same task list (any worker
count, any arrival order of result batches, no hashing errors) the two
paths produce catalogs whose record lists are permutations of each other:
same record count and same multiset of fingerprints. -/
theorem seq_par_refinement (hashFile : String → Option String) (numCPU : Nat)
    (schedule : List (List FileTask) → List (List FileTask)) (tasks : List FileTask)
    (hsched : ∀ js, (schedule js).Perm js)
    (hok : ∀ t ∈ tasks, (hashFile t.Path).isSome = true) :
    minFilesForParallelization = 20 ∧
    (tasks.length < 20 →
      scanDispatch hashFile numCPU schedule tasks = processFilesSequentially hashFile tasks) ∧
    (20 ≤ tasks.length →
      scanDispatch hashFile numCPU schedule tasks =
        processFilesInParallel hashFile numCPU schedule tasks) ∧
    (processFilesSequentially hashFile tasks).Files.Perm
      (processFilesInParallel hashFile numCPU schedule tasks).Files ∧
    (processFilesSequentially hashFile tasks).Files.length =
      (processFilesInParallel hashFile numCPU schedule tasks).Files.length ∧
    ((processFilesSequentially hashFile tasks).Files.map FileInfo.Hash).Perm
      ((processFilesInParallel hashFile numCPU schedule tasks).Files.map FileInfo.Hash) := by
  have hperm : (processFilesSequentially hashFile tasks).Files.Perm
      (processFilesInParallel hashFile numCPU schedule tasks).Files := by
    rw [processFilesSequentially_Files]
    exact (processFilesInParallel_Files hashFile numCPU schedule tasks hsched).symm
  have h20 : minFilesForParallelization = 20 := rfl
  refine ⟨rfl, ?_, ?_, hperm, hperm.length_eq, hperm.map _⟩
  · intro h
    rw [scanDispatch, if_pos (by rw [h20]; exact h)]
  · intro h
    rw [scanDispatch, if_neg (by rw [h20]; omega)]

theorem scanOk_map {α β : Type} (f : α → β) (x : Except String α) :
    scanOk (x.map f) = scanOk x := by
  cases x <;> rfl

theorem walkEnumerate_ok (limit : Int) :
    ∀ (dirs : List RootDirWalk) (count : Nat),
      scanOk (walkEnumerate limit count dirs) =
        dirs.all (fun root => !root.dirExists || root.walkErr.isNone) := by
  intro dirs
  induction dirs with
  | nil => intro count; rfl
  | cons root rest ih =>
    intro count
    obtain ⟨dex, evs, werr⟩ := root
    cases dex
    · rw [walkEnumerate]
      simp only [List.all_cons, Bool.not_false, Bool.true_or, Bool.true_and]
      exact ih _
    · cases werr with
      | some e =>
        rw [walkEnumerate]
        simp only [List.all_cons, Bool.not_true, Option.isNone_some, Bool.or_false,
          Bool.false_and]
        rfl
      | none =>
        rw [walkEnumerate]
        simp only [List.all_cons, Bool.not_true, Option.isNone_none, Bool.or_true,
          Bool.true_and]
        rw [scanOk_map]
        exact ih _

/-- C5.  Error absorption: the scan call returns an error exactly when
some existing root's traversal mechanism reports a structural failure —
independent of the hash oracle, so hashing failures never error; a
nonexistent root is skipped entirely; access-error and directory entries
are skipped; and a file whose hashing fails is simply excluded from the
catalog while every other hashed file is kept, on both hashing paths: in
the sequential path and inside each `hashWorker` batch of the parallel
path (so a failure does not affect other files in the same batch), and
hence — for any arrival order of the result batches — across the whole
parallel catalog. -/
theorem error_absorption :
    (∀ (hashFile : String → Option String) (numCPU : Nat)
        (schedule : List (List FileTask) → List (List FileTask))
        (dirs : List RootDirWalk) (limit : Int),
      scanOk (walkDirectoriesWithLimit hashFile numCPU schedule dirs limit) =
        dirs.all (fun root => !root.dirExists || root.walkErr.isNone)) ∧
    (∀ (limit : Int) (count : Nat) (events : List WalkEvent) (werr : Option String)
        (rest : List RootDirWalk),
      walkEnumerate limit count (⟨false, events, werr⟩ :: rest) =
        walkEnumerate limit count rest) ∧
    (∀ (limit : Int) (count : Nat) (path : String) (rest : List WalkEvent),
      walkRoot limit count (.accessErr path :: rest) = walkRoot limit count rest) ∧
    (∀ (limit : Int) (count : Nat) (path : String) (rest : List WalkEvent),
      walkRoot limit count (.dirEntry path :: rest) = walkRoot limit count rest) ∧
    (∀ (hashFile : String → Option String) (tasks : List FileTask),
      (processFilesSequentially hashFile tasks).Files =
        tasks.filterMap (fun task => (hashFile task.Path).map (taskFileInfo task))) ∧
    (∀ (hashFile : String → Option String) (batch : List FileTask),
      hashBatchSuccesses hashFile batch =
        batch.filterMap (fun task => (hashFile task.Path).map (taskFileInfo task))) ∧
    (∀ (hashFile : String → Option String) (numCPU : Nat)
        (schedule : List (List FileTask) → List (List FileTask)) (tasks : List FileTask),
      (processFilesInParallel hashFile numCPU schedule tasks).Files =
        ((schedule (chunkList (batchSizeFor numCPU tasks.length) tasks)).flatten).filterMap
          (fun task => (hashFile task.Path).map (taskFileInfo task))) ∧
    (∀ (hashFile : String → Option String) (numCPU : Nat)
        (schedule : List (List FileTask) → List (List FileTask)) (tasks : List FileTask),
      (∀ js, (schedule js).Perm js) →
      (processFilesInParallel hashFile numCPU schedule tasks).Files.Perm
        (tasks.filterMap (fun task => (hashFile task.Path).map (taskFileInfo task)))) := by
  refine ⟨?_, ?_, ?_, ?_, ?_, ?_, ?_, ?_⟩
  · intro hashFile numCPU schedule dirs limit
    rw [walkDirectoriesWithLimit, scanOk_map, walkEnumerate_ok]
  · intro limit count events werr rest
    rw [walkEnumerate]
  · intro limit count path rest
    rw [walkRoot]
  · intro limit count path rest
    rw [walkRoot]
  · intro hashFile tasks
    exact processFilesSequentially_Files hashFile tasks
  · intro hashFile batch
    rfl
  · intro hashFile numCPU schedule tasks
    simp only [processFilesInParallel]
    rw [buildFileSet_Files, flatten_map_hashBatch]
  · intro hashFile numCPU schedule tasks hsched
    exact processFilesInParallel_Files hashFile numCPU schedule tasks hsched

theorem walkRoot_count (limit : Int) :
    ∀ (events : List WalkEvent) (count : Nat),
      (walkRoot limit count events).2 = count + (walkRoot limit count events).1.length ∧
      (0 < limit → (count : Int) ≤ limit → ((walkRoot limit count events).2 : Int) ≤ limit) := by
  intro events
  induction events with
  | nil => intro count; exact ⟨rfl, fun _ h => h⟩
  | cons ev rest ih =>
    intro count
    cases ev with
    | accessErr p => rw [walkRoot]; exact ih count
    | dirEntry p => rw [walkRoot]; exact ih count
    | fileEntry task =>
      rw [walkRoot]
      by_cases hcap : 0 < limit ∧ limit ≤ (count : Int)
      · rw [if_pos hcap]
        exact ⟨rfl, fun _ h => h⟩
      · rw [if_neg hcap]
        obtain ⟨ih1, ih2⟩ := ih (count + 1)
        constructor
        · simp only [List.length_cons]
          omega
        · intro hpos hle
          refine ih2 hpos ?_
          have : ¬(limit ≤ (count : Int)) := fun hc => hcap ⟨hpos, hc⟩
          push_cast
          omega

theorem walkEnumerate_cap (limit : Int) (hpos : 0 < limit) :
    ∀ (dirs : List RootDirWalk) (count : Nat) (ts : List FileTask),
      (count : Int) ≤ limit → walkEnumerate limit count dirs = .ok ts →
      ((count + ts.length : Int)) ≤ limit := by
  intro dirs
  induction dirs with
  | nil =>
    intro count ts hle hok
    simp only [walkEnumerate, Except.ok.injEq] at hok
    subst hok
    simpa using hle
  | cons root rest ih =>
    intro count ts hle hok
    obtain ⟨dex, evs, werr⟩ := root
    cases dex
    · rw [walkEnumerate] at hok
      exact ih count ts hle hok
    · cases werr with
      | some e => rw [walkEnumerate] at hok; simp at hok
      | none =>
        rw [walkEnumerate] at hok
        cases hrec : walkEnumerate limit (walkRoot limit count evs).2 rest with
        | error e => rw [hrec] at hok; simp [Except.map] at hok
        | ok more =>
          rw [hrec] at hok
          simp only [Except.map, Except.ok.injEq] at hok
          subst hok
          obtain ⟨hcnt, hbound⟩ := walkRoot_count limit evs count
          have h2 := ih (walkRoot limit count evs).2 more
            (hbound hpos hle) hrec
          rw [List.length_append]
          rw [hcnt] at h2
          push_cast at h2 ⊢
          omega

theorem walkRoot_nolimit (limit : Int) (hnp : limit ≤ 0) :
    ∀ (events : List WalkEvent) (count : Nat),
      (walkRoot limit count events).1 = events.filterMap eventTask := by
  intro events
  induction events with
  | nil => intro count; rfl
  | cons ev rest ih =>
    intro count
    cases ev with
    | accessErr p => rw [walkRoot, List.filterMap_cons]; exact ih count
    | dirEntry p => rw [walkRoot, List.filterMap_cons]; exact ih count
    | fileEntry task =>
      rw [walkRoot, if_neg (by omega), List.filterMap_cons]
      simp only [eventTask, Option.map_some]
      rw [ih (count + 1)]

theorem walkEnumerate_nolimit (limit : Int) (hnp : limit ≤ 0) :
    ∀ (dirs : List RootDirWalk) (count : Nat) (ts : List FileTask),
      walkEnumerate limit count dirs = .ok ts →
      ts = ((dirs.filter (fun root => root.dirExists)).map
        (fun root => root.events.filterMap eventTask)).flatten := by
  intro dirs
  induction dirs with
  | nil =>
    intro count ts hok
    simp only [walkEnumerate, Except.ok.injEq] at hok
    subst hok
    rfl
  | cons root rest ih =>
    intro count ts hok
    obtain ⟨dex, evs, werr⟩ := root
    cases dex
    · rw [walkEnumerate] at hok
      rw [List.filter_cons_of_neg (by simp)]
      exact ih count ts hok
    · cases werr with
      | some e => rw [walkEnumerate] at hok; simp at hok
      | none =>
        rw [walkEnumerate] at hok
        cases hrec : walkEnumerate limit (walkRoot limit count evs).2 rest with
        | error e => rw [hrec] at hok; simp [Except.map] at hok
        | ok more =>
          rw [hrec] at hok
          simp only [Except.map, Except.ok.injEq] at hok
          subst hok
          rw [List.filter_cons_of_pos (by simp), List.map_cons, List.flatten_cons,
            walkRoot_nolimit limit hnp, ih _ more hrec]

theorem scanDispatch_length_le (hashFile : String → Option String) (numCPU : Nat)
    (schedule : List (List FileTask) → List (List FileTask)) (tasks : List FileTask)
    (hsched : ∀ js, (schedule js).Perm js) :
    (scanDispatch hashFile numCPU schedule tasks).Files.length ≤ tasks.length := by
  rw [scanDispatch]
  split
  · rw [processFilesSequentially_Files]
    exact List.length_filterMap_le _ _
  · rw [(processFilesInParallel_Files hashFile numCPU schedule tasks hsched).length_eq]
    exact List.length_filterMap_le _ _

/-- C6.  File cap: with a positive limit the enumeration collects at most
`limit` candidate files across all roots combined (so the catalog holds
at most that many records, either hashing path); with a zero or negative
limit — including `walkDirectories`, which passes -1 — every regular file
found under every existing root is processed. -/
theorem file_cap :
    (∀ (limit : Int) (dirs : List RootDirWalk) (ts : List FileTask),
      0 < limit → walkEnumerate limit 0 dirs = .ok ts → ts.length ≤ limit.toNat) ∧
    (∀ (limit : Int) (dirs : List RootDirWalk) (ts : List FileTask),
      limit ≤ 0 → walkEnumerate limit 0 dirs = .ok ts →
      ts = ((dirs.filter (fun root => root.dirExists)).map
        (fun root => root.events.filterMap eventTask)).flatten) ∧
    (∀ (hashFile : String → Option String) (numCPU : Nat)
        (schedule : List (List FileTask) → List (List FileTask)) (dirs : List RootDirWalk),
      walkDirectories hashFile numCPU schedule dirs =
        walkDirectoriesWithLimit hashFile numCPU schedule dirs (-1)) ∧
    (∀ (hashFile : String → Option String) (numCPU : Nat)
        (schedule : List (List FileTask) → List (List FileTask)) (tasks : List FileTask),
      (∀ js, (schedule js).Perm js) →
      (scanDispatch hashFile numCPU schedule tasks).Files.length ≤ tasks.length) := by
  refine ⟨?_, ?_, ?_, ?_⟩
  · intro limit dirs ts hpos hok
    have := walkEnumerate_cap limit hpos dirs 0 ts (by push_cast; omega) hok
    omega
  · intro limit dirs ts hnp hok
    exact walkEnumerate_nolimit limit hnp dirs 0 ts hok
  · intro hashFile numCPU schedule dirs
    rfl
  · intro hashFile numCPU schedule tasks hsched
    exact scanDispatch_length_le hashFile numCPU schedule tasks hsched

-- ## Catalog index consistency

theorem count_single (r fi : FileInfo) :
    List.count r [fi] = if fi = r then 1 else 0 := by
  by_cases h : fi = r
  · subst h; simp
  · simp [List.count_cons, h, beq_eq_false_iff_ne.mpr h]

theorem insertRecord_count_name (fs : FileSet) (fi : FileInfo)
    (hn : ∀ n r, (mapGetD fs.NameMap n).count r =
      if r.Name = n then fs.Files.count r else 0) :
    ∀ n r, (mapGetD (insertRecord fs fi).NameMap n).count r =
      if r.Name = n then (insertRecord fs fi).Files.count r else 0 := by
  intro n r
  show (mapGetD (mapAppend fs.NameMap fi.Name fi) n).count r =
    if r.Name = n then (fs.Files ++ [fi]).count r else 0
  rw [mapGetD_mapAppend]
  by_cases hk : n = fi.Name
  · rw [if_pos hk, List.count_append, hn fi.Name r, List.count_append, count_single]
    by_cases hr : r.Name = n
    · rw [if_pos (hr.trans hk), if_pos hr]
    · rw [if_neg (fun hc => hr (hc.trans hk.symm)), if_neg hr]
      by_cases hfi : fi = r
      · exfalso
        apply hr
        rw [← hfi]
        exact hk.symm
      · rw [if_neg hfi]
  · rw [if_neg hk, hn n r, List.count_append, count_single]
    by_cases hr : r.Name = n
    · rw [if_pos hr, if_pos hr]
      have hfi : ¬(fi = r) := fun hc => hk (by rw [hc]; exact hr.symm)
      rw [if_neg hfi, Nat.add_zero]
    · rw [if_neg hr, if_neg hr]

theorem insertRecord_count_hash (fs : FileSet) (fi : FileInfo)
    (hh : ∀ h r, (mapGetD fs.HashMap h).count r =
      if r.Hash = h then fs.Files.count r else 0) :
    ∀ h r, (mapGetD (insertRecord fs fi).HashMap h).count r =
      if r.Hash = h then (insertRecord fs fi).Files.count r else 0 := by
  intro h r
  show (mapGetD (mapAppend fs.HashMap fi.Hash fi) h).count r =
    if r.Hash = h then (fs.Files ++ [fi]).count r else 0
  rw [mapGetD_mapAppend]
  by_cases hk : h = fi.Hash
  · rw [if_pos hk, List.count_append, hh fi.Hash r, List.count_append, count_single]
    by_cases hr : r.Hash = h
    · rw [if_pos (hr.trans hk), if_pos hr]
    · rw [if_neg (fun hc => hr (hc.trans hk.symm)), if_neg hr]
      by_cases hfi : fi = r
      · exfalso
        apply hr
        rw [← hfi]
        exact hk.symm
      · rw [if_neg hfi]
  · rw [if_neg hk, hh h r, List.count_append, count_single]
    by_cases hr : r.Hash = h
    · rw [if_pos hr, if_pos hr]
      have hfi : ¬(fi = r) := fun hc => hk (by rw [hc]; exact hr.symm)
      rw [if_neg hfi, Nat.add_zero]
    · rw [if_neg hr, if_neg hr]

theorem buildFold_counts :
    ∀ (l : List FileInfo) (fs : FileSet),
      (∀ n r, (mapGetD fs.NameMap n).count r = if r.Name = n then fs.Files.count r else 0) →
      (∀ h r, (mapGetD fs.HashMap h).count r = if r.Hash = h then fs.Files.count r else 0) →
      (∀ n r, (mapGetD (l.foldl insertRecord fs).NameMap n).count r =
          if r.Name = n then (l.foldl insertRecord fs).Files.count r else 0) ∧
      (∀ h r, (mapGetD (l.foldl insertRecord fs).HashMap h).count r =
          if r.Hash = h then (l.foldl insertRecord fs).Files.count r else 0) := by
  intro l
  induction l with
  | nil => intro fs hn hh; exact ⟨hn, hh⟩
  | cons fi rest ih =>
    intro fs hn hh
    rw [List.foldl_cons]
    exact ih (insertRecord fs fi) (insertRecord_count_name fs fi hn)
      (insertRecord_count_hash fs fi hh)

theorem buildFileSet_counts (l : List FileInfo) :
    (∀ n r, (mapGetD (buildFileSet l).NameMap n).count r =
        if r.Name = n then (buildFileSet l).Files.count r else 0) ∧
    (∀ h r, (mapGetD (buildFileSet l).HashMap h).count r =
        if r.Hash = h then (buildFileSet l).Files.count r else 0) := by
  rw [buildFileSet]
  exact buildFold_counts l emptyFileSet (fun n r => by simp [mapGetD, mapFind, emptyFileSet])
    (fun h r => by simp [mapGetD, mapFind, emptyFileSet])

theorem mem_of_count_char {s : FileSet}
    (hn : ∀ n r, (mapGetD s.NameMap n).count r = if r.Name = n then s.Files.count r else 0)
    (n : String) (r : FileInfo) :
    r ∈ mapGetD s.NameMap n ↔ r ∈ s.Files ∧ r.Name = n := by
  constructor
  · intro hm
    have hc := List.count_pos_iff.mpr hm
    rw [hn n r] at hc
    by_cases hr : r.Name = n
    · rw [if_pos hr] at hc
      exact ⟨List.count_pos_iff.mp hc, hr⟩
    · rw [if_neg hr] at hc
      omega
  · intro ⟨hm, hr⟩
    refine List.count_pos_iff.mp ?_
    rw [hn n r, if_pos hr]
    exact List.count_pos_iff.mpr hm

theorem mem_of_count_char_hash {s : FileSet}
    (hh : ∀ h r, (mapGetD s.HashMap h).count r = if r.Hash = h then s.Files.count r else 0)
    (h : String) (r : FileInfo) :
    r ∈ mapGetD s.HashMap h ↔ r ∈ s.Files ∧ r.Hash = h := by
  constructor
  · intro hm
    have hc := List.count_pos_iff.mpr hm
    rw [hh h r] at hc
    by_cases hr : r.Hash = h
    · rw [if_pos hr] at hc
      exact ⟨List.count_pos_iff.mp hc, hr⟩
    · rw [if_neg hr] at hc
      omega
  · intro ⟨hm, hr⟩
    refine List.count_pos_iff.mp ?_
    rw [hh h r, if_pos hr]
    exact List.count_pos_iff.mpr hm

theorem processFilesSequentially_eq_buildFileSet (hashFile : String → Option String)
    (tasks : List FileTask) :
    processFilesSequentially hashFile tasks =
      buildFileSet (tasks.filterMap (fun task => (hashFile task.Path).map (taskFileInfo task))) := by
  rw [processFilesSequentially, buildFileSet, processFilesSequentially_eq_buildFold]

theorem processFilesInParallel_eq_buildFileSet (hashFile : String → Option String)
    (numCPU : Nat) (schedule : List (List FileTask) → List (List FileTask))
    (tasks : List FileTask) :
    processFilesInParallel hashFile numCPU schedule tasks =
      buildFileSet (((schedule (chunkList (batchSizeFor numCPU tasks.length) tasks)).map
        (hashBatchSuccesses hashFile)).flatten) := by
  rfl

/-- C9.  Catalog index consistency: for every catalog either scan path
returns, both indexes exactly derive from the record list — each record
occurs in the list at key `n` of the name index exactly as often as it
occurs in `Files` with that name (and so is a member iff it is a record
with that name), and likewise for the fingerprint index; both indexes map
keys to record lists. -/
theorem catalog_index_consistency :
    (∀ (hashFile : String → Option String) (tasks : List FileTask) (n : String) (r : FileInfo),
      ((mapGetD (processFilesSequentially hashFile tasks).NameMap n).count r =
        if r.Name = n then (processFilesSequentially hashFile tasks).Files.count r else 0) ∧
      ((mapGetD (processFilesSequentially hashFile tasks).HashMap n).count r =
        if r.Hash = n then (processFilesSequentially hashFile tasks).Files.count r else 0) ∧
      (r ∈ mapGetD (processFilesSequentially hashFile tasks).NameMap n ↔
        r ∈ (processFilesSequentially hashFile tasks).Files ∧ r.Name = n) ∧
      (r ∈ mapGetD (processFilesSequentially hashFile tasks).HashMap n ↔
        r ∈ (processFilesSequentially hashFile tasks).Files ∧ r.Hash = n)) ∧
    (∀ (hashFile : String → Option String) (numCPU : Nat)
        (schedule : List (List FileTask) → List (List FileTask))
        (tasks : List FileTask) (n : String) (r : FileInfo),
      ((mapGetD (processFilesInParallel hashFile numCPU schedule tasks).NameMap n).count r =
        if r.Name = n then (processFilesInParallel hashFile numCPU schedule tasks).Files.count r
        else 0) ∧
      ((mapGetD (processFilesInParallel hashFile numCPU schedule tasks).HashMap n).count r =
        if r.Hash = n then (processFilesInParallel hashFile numCPU schedule tasks).Files.count r
        else 0) ∧
      (r ∈ mapGetD (processFilesInParallel hashFile numCPU schedule tasks).NameMap n ↔
        r ∈ (processFilesInParallel hashFile numCPU schedule tasks).Files ∧ r.Name = n) ∧
      (r ∈ mapGetD (processFilesInParallel hashFile numCPU schedule tasks).HashMap n ↔
        r ∈ (processFilesInParallel hashFile numCPU schedule tasks).Files ∧ r.Hash = n)) := by
  constructor
  · intro hashFile tasks n r
    rw [processFilesSequentially_eq_buildFileSet]
    obtain ⟨hn, hh⟩ := buildFileSet_counts
      (tasks.filterMap (fun task => (hashFile task.Path).map (taskFileInfo task)))
    exact ⟨hn n r, hh n r, mem_of_count_char hn n r, mem_of_count_char_hash hh n r⟩
  · intro hashFile numCPU schedule tasks n r
    rw [processFilesInParallel_eq_buildFileSet]
    obtain ⟨hn, hh⟩ := buildFileSet_counts
      (((schedule (chunkList (batchSizeFor numCPU tasks.length) tasks)).map
        (hashBatchSuccesses hashFile)).flatten)
    exact ⟨hn n r, hh n r, mem_of_count_char hn n r, mem_of_count_char_hash hh n r⟩

-- ## Witnesses for the remaining claims

def sampleSetA : FileSet := buildFileSet [fiOtherC]

def sampleSetB : FileSet := buildFileSet [fiDirA]

theorem differ_classification_exact_witness :
    fiDirA ∈ sampleSetB.Files ∧
    (∀ x ∈ sampleSetB.Files, mapHasKey sampleSetB.HashMap x.Hash = true) ∧
    (fiDirA ∈ (compareFileSets sampleSetA sampleSetB).UniqueToSet2 ∧
      fiDirA ∉ (compareFileSets sampleSetA sampleSetB).SameNameDifferentHash ∧
      fiDirA ∉ (compareFileSets sampleSetA sampleSetB).UniqueToSet1) :=
  ⟨by decide, by decide,
    (differ_classification_exact sampleSetA sampleSetB fiDirA (by decide)
      (by decide)).2.2 (by rfl) (by rfl)⟩

theorem differ_symmetry_law_witness :
    mapHasKey sampleOtherSet.HashMap fiSubB.Hash = true ∧
    mapHasKey sampleSourceSet.HashMap fiSubB.Hash = true ∧
    (fiSubB ∉ (compareFileSets sampleOtherSet sampleSourceSet).SameNameDifferentHash ∧
      fiSubB ∉ (compareFileSets sampleOtherSet sampleSourceSet).UniqueToSet1 ∧
      fiSubB ∉ (compareFileSets sampleOtherSet sampleSourceSet).UniqueToSet2) :=
  ⟨by rfl, by rfl,
    differ_symmetry_law sampleOtherSet sampleSourceSet fiSubB (by rfl) (by rfl)⟩

/-- The source catalog with its record list permuted but its indexes kept. -/
def sampleSourcePerm : FileSet :=
  ⟨[fiSubB, fiDirA], sampleSourceSet.NameMap, sampleSourceSet.HashMap⟩

theorem differ_order_insensitive_witness :
    sampleSourcePerm.Files.Perm sampleSourceSet.Files ∧
    (compareFileSets sampleSourcePerm sampleOtherSet).SameNameDifferentHash.Perm
      (compareFileSets sampleSourceSet sampleOtherSet).SameNameDifferentHash :=
  ⟨by decide,
    (differ_order_insensitive sampleSourceSet sampleSourcePerm sampleOtherSet sampleOtherSet
      (by decide) rfl rfl (List.Perm.refl _) rfl rfl).1⟩

def sampleTask1 : FileTask := ⟨"/set1/a.txt", "a.txt", 1, "/set1", "a.txt"⟩

def sampleTask2 : FileTask := ⟨"/set1/b.txt", "b.txt", 1, "/set1", "b.txt"⟩

/-- The identity arrival order (results collected in batch order). -/
def idSchedule : List (List FileTask) → List (List FileTask) := fun js => js

/-- A hash oracle that always succeeds. -/
def constHash : String → Option String := fun _ => some "h0"

theorem seq_par_refinement_witness :
    (∀ js, (idSchedule js).Perm js) ∧
    (∀ t ∈ [sampleTask1, sampleTask2], (constHash t.Path).isSome = true) ∧
    minFilesForParallelization = 20 :=
  ⟨fun js => List.Perm.refl js, by decide,
    (seq_par_refinement constHash 4 idSchedule [sampleTask1, sampleTask2]
      (fun js => List.Perm.refl js) (by decide)).1⟩

def sampleRoot : RootDirWalk :=
  ⟨true, [.fileEntry sampleTask1, .dirEntry "/set1/sub", .fileEntry sampleTask2], none⟩

theorem error_absorption_witness :
    (∀ js, (idSchedule js).Perm js) ∧
    (processFilesInParallel constHash 4 idSchedule [sampleTask1, sampleTask2]).Files.Perm
      ([sampleTask1, sampleTask2].filterMap
        (fun task => (constHash task.Path).map (taskFileInfo task))) :=
  ⟨fun js => List.Perm.refl js,
    error_absorption.2.2.2.2.2.2.2 constHash 4 idSchedule [sampleTask1, sampleTask2]
      (fun js => List.Perm.refl js)⟩

theorem file_cap_witness :
    (0 : Int) < 1 ∧
    walkEnumerate 1 0 [sampleRoot] = .ok [sampleTask1] ∧
    [sampleTask1].length ≤ (1 : Int).toNat :=
  ⟨by decide, by rfl, file_cap.1 1 [sampleRoot] [sampleTask1] (by decide) (by rfl)⟩
